import Mathlib

/-!
Verification development for the MultiSplitDecisionTree repository.

The definitions below are a shallow embedding of `src/_tree.py` (class
`MultiSplitDecisionTreeClassifier` and the module-level helpers).  Machine
floats of the source are modelled as exact rationals, pandas series as Lean
lists, and boolean masks as lists of booleans.  Each definition carries a
reference to the source lines it translates.
-/

namespace MSDT

/-- Values stored in a dataframe cell: a string token, a numeric value, or NaN
(missing).  This mirrors the dynamic typing of the pandas columns consumed by
`_tree.py`: categorical and rank columns hold strings or NaN, numerical columns
hold floats or NaN. -/
inductive Cell where
  | str (s : String)
  | num (q : ℚ)
  | nan
  deriving DecidableEq, Repr

/-- pandas `Series.isna()` on one cell. -/
def Cell.isNa : Cell → Bool
  | .nan => true
  | _ => false

/-- pandas `Series.notna()` on one cell. -/
def Cell.notNa (c : Cell) : Bool := !c.isNa

/-- pandas `Series.isin(list_)` on one cell: true iff the cell is a string
token occurring in the list (NaN and numbers never match a list of string
tokens). -/
def Cell.isin (c : Cell) (l : List String) : Bool :=
  match c with
  | .str s => l.contains s
  | _ => false

/-- String content of a cell, when present. -/
def Cell.strVal : Cell → Option String
  | .str s => some s
  | _ => none

/-- Python comparison `cell <= threshold` on a numeric column: NaN compares
False against every number, exactly as the float NaN of the source does. -/
def Cell.leB (c : Cell) (t : ℚ) : Bool :=
  match c with
  | .num q => decide (q ≤ t)
  | _ => false

/-- Python comparison `cell > threshold` on a numeric column: NaN compares
False against every number. -/
def Cell.gtB (c : Cell) (t : ℚ) : Bool :=
  match c with
  | .num q => decide (t < q)
  | _ => false

/-- Pointwise conjunction of two boolean masks (pandas `&`). -/
def maskAnd (a b : List Bool) : List Bool := List.zipWith and a b

/-- Pointwise disjunction of two boolean masks (pandas `|`). -/
def maskOr (a b : List Bool) : List Bool := List.zipWith or a b

/-- Number of set entries of a boolean mask (pandas `mask.sum()`). -/
def maskSum (m : List Bool) : ℕ := m.count true

/-- Entries of `l` whose mask bit is set (pandas boolean indexing `l[mask]`). -/
def select {α : Type*} (m : List Bool) (l : List α) : List α :=
  (List.zip m l).filterMap (fun p => if p.1 then some p.2 else none)

/-- Translation of the generator `categorical_partition` (src/_tree.py lines
32-43), realised as the list of partitions in yield order.  `insertIntoBlock x
smaller n` is the yield `smaller[:n] + [[first] + subset] + smaller[n+1:]`. -/
def insertIntoBlock {α : Type*} (x : α) (smaller : List (List α)) (n : ℕ) :
    List (List α) :=
  smaller.take n ++ [x :: smaller.getD n []] ++ smaller.drop (n + 1)

/-- Translation of `categorical_partition` (src/_tree.py lines 32-43).  The
source generator is only ever invoked on nonempty lists (it raises an
IndexError on an empty one); the empty case is modelled as no partitions. -/
def categorical_partition {α : Type*} : List α → List (List (List α))
  | [] => []
  | [x] => [[[x]]]
  | x :: rest =>
      (categorical_partition rest).flatMap (fun smaller =>
        (List.range smaller.length).map (insertIntoBlock x smaller) ++
          [[x] :: smaller])

/-- Translation of `rank_partition` (src/_tree.py lines 46-48): the prefix cuts
`(collection[:i], collection[i:])` for `i = 1 .. len - 1`. -/
def rank_partition {α : Type*} (collection : List α) :
    List (List α × List α) :=
  (List.range' 1 (collection.length - 1)).map
    (fun i => (collection.take i, collection.drop i))

/-- Candidate thresholds of `__numerical_split` (src/_tree.py lines 745-746):
`points` is the ascending sort of ALL non-missing values of the subset,
duplicates included, and one threshold is the midpoint of every pair of
consecutive entries of `points`. -/
def numericalThresholds (values : List ℚ) : List ℚ :=
  let points := List.insertionSort (· ≤ ·) values
  (List.range (points.length - 1)).map
    (fun i => (points.getD i 0 + points.getD (i + 1) 0) / 2)

/-- Modelled from the spec (claim C2 comparison definition): sort the DISTINCT
non-missing values and take midpoints between consecutive sorted values. -/
def distinctMidpoints (values : List ℚ) : List ℚ :=
  let pts := List.insertionSort (· ≤ ·) values.dedup
  (List.range (pts.length - 1)).map
    (fun i => (pts.getD i 0 + pts.getD (i + 1) 0) / 2)

/-- Class distribution of a masked subset (`__distribution`, src/_tree.py lines
458-465): for each class name, `(mask & (y == class_name)).sum()`. -/
def distributionOf (classNames : List String) (y : List String)
    (mask : List Bool) : List ℕ :=
  classNames.map (fun c => maskSum (maskAnd mask (y.map (fun v => v == c))))

/-- Gini impurity of a masked subset (`__gini`, src/_tree.py lines 500-519) in
exact rational arithmetic. -/
def giniOf (classNames : List String) (y : List String) (mask : List Bool) :
    ℚ :=
  let n : ℚ := (maskSum mask : ℚ)
  (classNames.map (fun c =>
    let m : ℚ := (maskSum (maskAnd mask (y.map (fun v => v == c))) : ℚ)
    (m / n) * (1 - m / n))).sum

/-- Gini index of a bare class-count vector: the same formula as `__gini` with
`m_i` the counts and `n` their total. -/
def giniCounts (counts : List ℕ) : ℚ :=
  let n : ℚ := ((counts.sum : ℕ) : ℚ)
  (counts.map (fun (m : ℕ) => ((m : ℚ) / n) * (1 - (m : ℚ) / n))).sum

/-- Shannon entropy of a class-count vector (`__entropy`, src/_tree.py lines
479-498): classes with zero count are skipped by the `if m_i != 0` guard, the
others contribute `-(m_i / n) * log2 (m_i / n)`. -/
noncomputable def entropyCounts (counts : List ℕ) : ℝ :=
  let n : ℝ := ((counts.sum : ℕ) : ℝ)
  (counts.map (fun (m : ℕ) =>
    if m = 0 then 0 else -(((m : ℝ) / n) * Real.logb 2 ((m : ℝ) / n)))).sum

/-- Numeric content of a cell, when present. -/
def Cell.numVal : Cell → Option ℚ
  | .num q => some q
  | _ => none

/-- Branch descriptor attached to a child node.  For categorical and rank
splits the source stores the list of string tokens of the branch; for
numerical splits it stores the strings `"<= t"` and `"> t"` and re-parses the
float at prediction time (src/_tree.py line 876).  Printing a float and parsing
it back returns the same float, so the embedding keeps the threshold as a
number together with the comparison direction. -/
inductive FV where
  | cat (vals : List String)
  | num (isLe : Bool) (t : ℚ)
  deriving DecidableEq, Repr

/-- Hyperparameters fixed at construction (src/_tree.py lines 247-271), after
`_check_init_params` has accepted them. -/
structure Config where
  min_samples_split : ℕ
  min_samples_leaf : ℕ
  min_impurity_decrease : ℚ
  max_depth : Option ℕ
  max_childs : Option ℕ
  deriving Repr

/-- A pandas DataFrame: column names plus rows mapping column names to cells. -/
structure Table where
  cols : List String
  rows : List (String → Cell)

/-- Column extraction `X[f]`. -/
def Table.col (X : Table) (f : String) : List Cell := X.rows.map (fun r => r f)

/-- Information gain (`__information_gain`, src/_tree.py lines 773-811).  The
impurity function `imp` stands for `self.__impurity` (lines 467-477), which
dispatches on the criterion; the Gini instance is `giniOf`. -/
def informationGain (imp : List String → List Bool → ℚ) (y : List String)
    (parentMask : List Bool) (childMasks : List (List Bool)) : ℚ :=
  let A : ℚ := (maskSum parentMask : ℚ)
  imp y parentMask -
    (childMasks.map (fun c => ((maskSum c : ℚ) / A) * imp y c)).sum

/-- One categorical split candidate (`__categorical_split`, src/_tree.py lines
628-663).  The source builds the child masks one by one and returns `(0, [])`
at the first child whose size is below `min_samples_leaf`; building them all
and then testing yields the same value. -/
def categoricalSplit (imp : List String → List Bool → ℚ) (msl : ℕ) (X : Table)
    (y : List String) (parentMask : List Bool) (f : String)
    (feature_values : List (List String)) : ℚ × List (List Bool) :=
  let mask_na := maskAnd parentMask ((X.col f).map Cell.isNa)
  let child_masks := feature_values.map (fun list_ =>
    maskAnd parentMask (maskOr ((X.col f).map (fun c => c.isin list_)) mask_na))
  if child_masks.any (fun m => maskSum m < msl) then (0, [])
  else (informationGain imp y parentMask child_masks, child_masks)

/-- Distinct non-missing values of a masked column, sorted ascending
(src/_tree.py lines 602-607): the set of the selected values with NaN
removed, sorted. -/
def availableValues (parentMask : List Bool) (col : List Cell) :
    List String :=
  List.insertionSort (· ≤ ·)
    ((select parentMask col).filterMap Cell.strVal).dedup

/-- Candidate partitions considered by `__best_categorical_split`
(src/_tree.py lines 611-616): all partitions from `categorical_partition`
except the first yielded one (the no-split variant), sorted by block count,
and filtered by `max_childs` when that limit is set. -/
def categoricalCandidates (maxChilds : Option ℕ)
    (available : List String) : List (List (List String)) :=
  let partitions0 := (categorical_partition available).drop 1
  let partitions1 :=
    List.insertionSort (fun a b => a.length ≤ b.length) partitions0
  match maxChilds with
  | none => partitions1
  | some mc => partitions1.filter (fun p => p.length ≤ mc)

/-- Best categorical split (`__best_categorical_split`, src/_tree.py lines
575-626): collect the distinct non-missing values of the masked column, give
up when fewer than two remain, otherwise score every candidate partition and
keep the one with strictly greatest gain. -/
def bestCategoricalSplit (imp : List String → List Bool → ℚ) (msl : ℕ)
    (maxChilds : Option ℕ) (X : Table) (y : List String)
    (parentMask : List Bool) (f : String) :
    ℚ × List (List Bool) × List (List String) :=
  let available := availableValues parentMask (X.col f)
  if available.length ≤ 1 then (0, [], [])
  else
    (categoricalCandidates maxChilds available).foldl (fun best fv =>
      let r := categoricalSplit imp msl X y parentMask f fv
      if best.1 < r.1 then (r.1, r.2, fv) else best) (0, [], [])

/-- One rank split candidate (`__rank_split`, src/_tree.py lines 688-717). -/
def rankSplit (imp : List String → List Bool → ℚ) (msl : ℕ) (X : Table)
    (y : List String) (parentMask : List Bool) (f : String)
    (feature_values : List String × List String) : ℚ × List (List Bool) :=
  let mask_na := maskAnd parentMask ((X.col f).map Cell.isNa)
  let mask_left :=
    maskAnd parentMask ((X.col f).map (fun c => c.isin feature_values.1))
  let mask_right :=
    maskAnd parentMask ((X.col f).map (fun c => c.isin feature_values.2))
  let mask_left_na := maskOr mask_left mask_na
  let mask_right_na := maskOr mask_right mask_na
  if maskSum mask_left_na < msl ∨ maskSum mask_right_na < msl then (0, [])
  else (informationGain imp y parentMask [mask_left_na, mask_right_na],
        [mask_left_na, mask_right_na])

/-- Best rank split (`__best_rank_split`, src/_tree.py lines 665-686): try
every prefix cut of the declared ordered vocabulary, keep the strictly
greatest gain. -/
def bestRankSplit (imp : List String → List Bool → ℚ) (msl : ℕ)
    (rankValues : List String) (X : Table) (y : List String)
    (parentMask : List Bool) (f : String) :
    ℚ × List (List Bool) × (List String × List String) :=
  (rank_partition rankValues).foldl (fun best fv =>
    let r := rankSplit imp msl X y parentMask f fv
    if best.1 < r.1 then (r.1, r.2, fv) else best) (0, [], ([], []))

/-- Best numerical split (`__numerical_split`, src/_tree.py lines 719-771):
thresholds are the consecutive midpoints of the sorted non-missing values;
candidates violating `min_samples_leaf` are skipped; the strictly greatest
gain wins and the winning descriptors record the threshold. -/
def numericalSplit (imp : List String → List Bool → ℚ) (msl : ℕ) (X : Table)
    (y : List String) (parentMask : List Bool) (f : String) :
    ℚ × List (List Bool) × List FV :=
  let mask_na := maskAnd parentMask ((X.col f).map Cell.isNa)
  let mask_notna := maskAnd parentMask ((X.col f).map Cell.notNa)
  let points := (select mask_notna (X.col f)).filterMap Cell.numVal
  let thresholds := numericalThresholds points
  thresholds.foldl (fun best t =>
    let mask_less := maskAnd parentMask ((X.col f).map (fun c => c.leB t))
    let mask_more := maskAnd parentMask ((X.col f).map (fun c => c.gtB t))
    let mask_less_na := maskOr mask_less mask_na
    let mask_more_na := maskOr mask_more mask_na
    if maskSum mask_less_na < msl ∨ maskSum mask_more_na < msl then best
    else
      let cms := [mask_less_na, mask_more_na]
      let ig := informationGain imp y parentMask cms
      if best.1 < ig then (ig, cms, [FV.num true t, FV.num false t]) else best)
    (0, [], [])

/-- Result of the split selector `__split`. -/
structure SplitResult where
  feature : Option String
  masks : List (List Bool)
  feature_values : List FV
  inf_gain : ℚ

/-- Dispatch of `__split` (src/_tree.py lines 551-562) for one feature: the
categorical group is tested first, then the rank group, then the numerical
group.  The final `assert False` of the source is unreachable for declared
features and is modelled as a no-split result. -/
def evalFeature (imp : List String → List Bool → ℚ) (cfg : Config)
    (catFs : List String) (rankFs : List (String × List String))
    (numFs : List String) (X : Table) (y : List String)
    (parentMask : List Bool) (f : String) : ℚ × List (List Bool) × List FV :=
  if catFs.contains f then
    let r := bestCategoricalSplit imp cfg.min_samples_leaf cfg.max_childs
      X y parentMask f
    (r.1, r.2.1, r.2.2.map FV.cat)
  else if (rankFs.map Prod.fst).contains f then
    let rv := ((rankFs.find? (fun p => p.1 == f)).map Prod.snd).getD []
    let r := bestRankSplit imp cfg.min_samples_leaf rv X y parentMask f
    (r.1, r.2.1, [FV.cat r.2.2.1, FV.cat r.2.2.2])
  else if numFs.contains f then
    numericalSplit imp cfg.min_samples_leaf X y parentMask f
  else (0, [], [])

/-- One iteration of the running-best loop of `__split` (src/_tree.py lines
564-568): a feature replaces the incumbent only when its gain is at least
`min_impurity_decrease` and strictly greater than the running best. -/
def selStep (mid : ℚ) (evalF : String → ℚ × List (List Bool) × List FV)
    (best : SplitResult) (f : String) : SplitResult :=
  let r := evalF f
  if mid ≤ r.1 ∧ best.inf_gain < r.1 then ⟨some f, r.2.1, r.2.2, r.1⟩
  else best

/-- Running-best fold of `__split` (src/_tree.py lines 547-568); the running
best gain starts at 0. -/
def selectFold (mid : ℚ) (evalF : String → ℚ × List (List Bool) × List FV)
    (feats : List String) : SplitResult :=
  feats.foldl (selStep mid evalF) ⟨none, [], [], 0⟩

/-- The split selector `__split` (src/_tree.py lines 521-573). -/
def split (imp : List String → List Bool → ℚ) (cfg : Config)
    (catFs : List String) (rankFs : List (String × List String))
    (numFs : List String) (X : Table) (y : List String)
    (parentMask : List Bool) (avail : List String) : SplitResult :=
  selectFold cfg.min_impurity_decrease
    (evalFeature imp cfg catFs rankFs numFs X y parentMask) avail

/-- Tree node (class `Node`, src/_tree.py lines 1017-1035). -/
inductive Node where
  | mk (feature : Option String) (feature_value : Option FV) (impurity : ℚ)
      (samples : ℕ) (distribution : List ℕ) (label : String)
      (childs : List Node)

/-- Split feature of the node, absent for a leaf. -/
def Node.feature : Node → Option String
  | .mk f _ _ _ _ _ _ => f

/-- Branch descriptor that led to this node, absent at the root. -/
def Node.feature_value : Node → Option FV
  | .mk _ fv _ _ _ _ _ => fv

/-- Impurity of the subset of the node. -/
def Node.impurity : Node → ℚ
  | .mk _ _ i _ _ _ _ => i

/-- Sample count of the node. -/
def Node.samples : Node → ℕ
  | .mk _ _ _ s _ _ _ => s

/-- Per-class count vector of the node. -/
def Node.distribution : Node → List ℕ
  | .mk _ _ _ _ d _ _ => d

/-- Majority class label of the node. -/
def Node.label : Node → String
  | .mk _ _ _ _ _ l _ => l

/-- Child nodes, empty for a leaf. -/
def Node.childs : Node → List Node
  | .mk _ _ _ _ _ _ c => c

/-- Most frequent element of a list, ties resolved towards the value seen
first; this models `y[parent_mask].value_counts().index[0]` of src/_tree.py
line 407.  On an empty selection the source raises; the embedding returns the
empty string there (never reached from a nonempty fit). -/
def mostFrequent (l : List String) : String :=
  (l.foldl (fun best v =>
    match best with
    | none => some v
    | some b => if l.count b < l.count v then some v else best) none).getD ""

/-- Stopping test on depth (src/_tree.py line 412): `max_depth` unset means
unbounded; a Python falsy `max_depth = 0` is likewise unbounded. -/
def maxDepthOk : Option ℕ → ℕ → Bool
  | none, _ => true
  | some d, depth => if d = 0 then true else decide (depth ≤ d)

/-- Dictionary lookup in the hierarchy map `special_cases`. -/
def scLookup (sc : List (String × List String)) (f : String) :
    Option (List String) :=
  (sc.find? (fun p => p.1 == f)).map Prod.snd

/-- Recursive node construction (`__generate_node`, src/_tree.py lines
376-456).  The embedding adds explicit recursion fuel: with fuel at least the
recursion depth of the source run, both agree; feature-importance
accumulation (a side effect on the model object, lines 419-420) is not
represented because no theorem below mentions it. -/
def generateNode (imp : List String → List Bool → ℚ) (cfg : Config)
    (catFs : List String) (rankFs : List (String × List String))
    (numFs : List String) (X : Table) (y classNames : List String) :
    ℕ → List Bool → Option FV → ℕ → List String →
      List (String × List String) → Node
  | 0, parentMask, feature_value, _, _, _ =>
      Node.mk none feature_value (imp y parentMask) (maskSum parentMask)
        (distributionOf classNames y parentMask)
        (mostFrequent (select parentMask y)) []
  | fuel + 1, parentMask, feature_value, depth, avail, sc =>
      let samples := maskSum parentMask
      let tryIt : Bool :=
        decide (cfg.min_samples_split ≤ samples) && maxDepthOk cfg.max_depth depth
      let r :=
        if tryIt then split imp cfg catFs rankFs numFs X y parentMask avail
        else ⟨none, [], [], 0⟩
      let childs :=
        match r.feature with
        | none => []
        | some f =>
            let availNew := match scLookup sc f with
              | some gs => avail ++ gs
              | none => avail
            let scNew := match scLookup sc f with
              | some _ => sc.eraseP (fun p => p.1 == f)
              | none => sc
            (r.masks.zip r.feature_values).map (fun p =>
              generateNode imp cfg catFs rankFs numFs X y classNames fuel
                p.1 (some p.2) (depth + 1) availNew scNew)
      Node.mk r.feature feature_value (imp y parentMask) samples
        (distributionOf classNames y parentMask)
        (mostFrequent (select parentMask y)) childs

/-- Observable state of a `MultiSplitDecisionTreeClassifier` instance: the
fields set in `__init__` (src/_tree.py lines 273-281) and overwritten by
`fit`.  Importances are kept as an association list. -/
structure ModelState where
  feature_names : Option (List String)
  class_names : Option (List String)
  cat_feature_names : List String
  rank_feature_names : List (String × List String)
  num_feature_names : List String
  tree : Option Node
  feature_importances : Option (List (String × ℚ))
  total_samples_num : Option ℕ

/-- State right after `__init__`: nothing fitted. -/
def initState : ModelState :=
  ⟨none, none, [], [], [], none, none, none⟩

/-- Arguments of one `fit` call.  The source allows a `special_cases` value to
be a single string or a list of strings and treats the single string exactly
like a one-element list (lines 358-363 and 425-432), so the embedding uses
lists throughout.  The categorical declaration values (allowed token lists)
are never read by the fitting code, only the keys are, so only names are
kept. -/
structure FitInput where
  X : Table
  y : List String
  categorical_feature_names : List String
  rank_feature_names : List (String × List String)
  numerical_feature_names : List String
  special_cases : List (String × List String)

/-- Value-level checks of `_check_fit_params` (src/_tree.py lines 96-229) in
source order; the pure type checks of the source are vacuous in a typed
embedding.  Returns the first error, if any. -/
def checkFitParams (inp : FitInput) : Option String :=
  if inp.X.rows.length ≠ inp.y.length then some "X and y must have equal length"
  else if inp.categorical_feature_names = [] ∧ inp.rank_feature_names = [] ∧
      inp.numerical_feature_names = [] then
    some "features must belong to at least one group"
  else if ¬ (inp.categorical_feature_names.all (inp.X.cols.contains ·)) then
    some "categorical feature missing from training data"
  else if ¬ ((inp.rank_feature_names.map Prod.fst).all (inp.X.cols.contains ·))
      then some "rank feature missing from training data"
  else if ¬ (inp.numerical_feature_names.all (inp.X.cols.contains ·)) then
    some "numerical feature missing from training data"
  else if ¬ (inp.X.cols.all (fun c =>
      inp.categorical_feature_names.contains c ∨
      (inp.rank_feature_names.map Prod.fst).contains c ∨
      inp.numerical_feature_names.contains c)) then
    some "training data contains an undeclared feature"
  else none

/-- Python `list.remove`: drops the first occurrence, fails when absent. -/
def removeFirst (l : List String) (a : String) : Option (List String) :=
  match l with
  | [] => none
  | b :: t => if b = a then some t else (removeFirst t a).map (b :: ·)

/-- The gated-feature removal loop of `fit` (src/_tree.py lines 355-365): every
value of `special_cases` is removed from the available features, one
occurrence per listed value; a value not present makes `list.remove` raise. -/
def initialAvailable (features : List String)
    (sc : List (String × List String)) : Option (List String) :=
  (sc.flatMap Prod.snd).foldl
    (fun acc g => acc.bind (fun l => removeFirst l g)) (some features)

/-- Sorted unique classes, `sorted(y.unique())` (src/_tree.py line 344). -/
def sortedClasses (y : List String) : List String :=
  List.insertionSort (· ≤ ·) y.dedup

/-- The `fit` method (src/_tree.py lines 313-374) as a state transition.  The
result pairs the state of the instance after the call with the raised error,
if any: a Python exception aborts the call but keeps every assignment already
executed.  The empty-input truthiness tests on the three declaration arguments
(lines 345-350) keep the previous declarations when a group is not passed. -/
def fitModel (imp : List String → List Bool → ℚ) (cfg : Config) (fuel : ℕ)
    (s : ModelState) (inp : FitInput) : ModelState × Option String :=
  match checkFitParams inp with
  | some e => (s, some e)
  | none =>
    let s1 : ModelState :=
      { s with
        feature_names := some inp.X.cols
        class_names := some (sortedClasses inp.y)
        cat_feature_names :=
          if inp.categorical_feature_names ≠ [] then
            inp.categorical_feature_names
          else s.cat_feature_names
        rank_feature_names :=
          if inp.rank_feature_names ≠ [] then inp.rank_feature_names
          else s.rank_feature_names
        num_feature_names :=
          if inp.numerical_feature_names ≠ [] then
            inp.numerical_feature_names
          else s.num_feature_names
        total_samples_num := some inp.X.rows.length
        feature_importances := some (inp.X.cols.map (fun f => (f, 0))) }
    match initialAvailable inp.X.cols inp.special_cases with
    | none => (s1, some "list.remove(x): x not in list")
    | some avail =>
      let t := generateNode imp cfg s1.cat_feature_names s1.rank_feature_names
        s1.num_feature_names inp.X inp.y (sortedClasses inp.y) fuel
        (List.replicate inp.y.length true) none 1 avail inp.special_cases
      ({ s1 with tree := some t }, none)

/-- Python runtime values as far as `__predict` compares them: strings,
floats, NaN and lists. -/
inductive PyVal where
  | str (s : String)
  | num (q : ℚ)
  | nan
  | list (l : List PyVal)

/-- Python `==` on runtime values: strings compare by content, numbers by
value, lists elementwise, NaN is unequal to everything including itself, and
any cross-kind comparison (in particular a list against a string) is `False`
rather than an error. -/
def pyEq : PyVal → PyVal → Bool
  | .str a, .str b => a == b
  | .num a, .num b => a == b
  | .list a, .list b =>
      (a.length == b.length) &&
        (a.attach.zip b).all (fun p => pyEq p.1.1 p.2)
  | _, _ => false
decreasing_by
  have := List.sizeOf_lt_of_mem p.1.2
  simp only [PyVal.list.sizeOf_spec]
  omega

/-- A cell as the Python value `point[feature]`. -/
def cellToPy : Cell → PyVal
  | .str s => .str s
  | .num q => .num q
  | .nan => .nan

/-- Display string of a numerical branch descriptor (src/_tree.py line 769). -/
def numLabel (isLe : Bool) (t : ℚ) : String :=
  (if isLe then "<= " else "> ") ++ toString t

/-- A branch descriptor as the Python value `child.feature_value`: always a
list (the source asserts this for every emitted descriptor, lines 570-571). -/
def fvToPy : FV → PyVal
  | .cat vals => .list (vals.map .str)
  | .num isLe t => .list [.str (numLabel isLe t)]

/-- Python `child.feature_value == point[node.feature]` (src/_tree.py line
867): a missing descriptor is Python `None`, equal to nothing else. -/
def fvMatches (child : Node) (v : Cell) : Bool :=
  match child.feature_value with
  | none => false
  | some fv => pyEq (fvToPy fv) (cellToPy v)

/-- Threshold recovered by `float(node.childs[0].feature_value[0][3:])`
(src/_tree.py line 876).  Printing a float and parsing the result returns the
same float, so the recovered threshold is the stored one; on a descriptor that
is not of the numerical shape the source would raise, modelled as `none`. -/
def thresholdOf (c : Node) : Option ℚ :=
  match c.feature_value with
  | some (.num _ t) => some t
  | _ => none

/-- Prediction for one row (`__predict`, src/_tree.py lines 857-891), with
explicit recursion fuel: the source recurses once per tree level, so any
fuel larger than the height of the tree agrees with it.  The for/break loop
of the categorical and rank branch descends into the first child whose
descriptor compares equal to the feature value of the row, and the for-else
branch returns the node's own label when none matched.  Errors:
`AssertionError` for the two `assert False` branches, and the Python error
raised by a failed child access or threshold recovery. -/
def predictBody (catFs : List String)
    (rankFs : List (String × List String)) (numFs : List String)
    (rec : Node → (String → Cell) → Except String String) (node : Node)
    (point : String → Cell) : Except String String :=
  match node.feature with
  | none => .ok node.label
  | some f =>
    if catFs.contains f || (rankFs.map Prod.fst).contains f then
      match node.childs.find? (fun c => fvMatches c (point f)) with
      | some c => rec c point
      | none => .ok node.label
    else if numFs.contains f then
      match node.childs with
      | [] => .error "IndexError"
      | c0 :: rest =>
        match thresholdOf c0 with
        | none => .error "ValueError"
        | some t =>
          if (point f).leB t then rec c0 point
          else if (point f).gtB t then
            match rest with
            | c1 :: _ => rec c1 point
            | [] => .error "IndexError"
          else .error "AssertionError: neither branch matches"
    else .error "AssertionError: unknown feature kind"

/-- The fuel recursion tying `predictBody` to the children. -/
def predictNode (catFs : List String)
    (rankFs : List (String × List String)) (numFs : List String) :
    ℕ → Node → (String → Cell) → Except String String
  | 0, _, _ => .error "RecursionError"
  | fuel + 1, node, point =>
      predictBody catFs rankFs numFs (predictNode catFs rankFs numFs fuel)
        node point

/-! Theorems. -/

/-- Claim C2, counterexample: on the subset values `[1, 2, 4, 4, 10]` the code
considers the four thresholds `[1.5, 3, 4, 7]` (midpoints of consecutive
entries of the sorted value list, duplicates included), not the three
midpoints of consecutive distinct values claimed. -/
theorem numericalThresholds_counterexample :
    numericalThresholds [1, 2, 4, 4, 10] = [3/2, 3, 4, 7] ∧
    distinctMidpoints [1, 2, 4, 4, 10] = [3/2, 3, 7] ∧
    numericalThresholds [1, 2, 4, 4, 10] ≠ distinctMidpoints [1, 2, 4, 4, 10] := by
  refine ⟨?_, ?_, ?_⟩ <;>
    norm_num [numericalThresholds, distinctMidpoints, List.insertionSort,
      List.orderedInsert, List.range_succ, List.dedup_cons_of_mem,
      List.dedup_cons_of_not_mem]

/-- Claim C2, amended: the candidate thresholds of the numerical evaluator are
the midpoints between consecutive entries of the sorted list of ALL
non-missing values of the subset, duplicates included, so the candidate count
is `total_count - 1`; when the values are pairwise distinct this coincides
with the claimed distinct-midpoint rule, and on `[1, 2, 4, 4, 10]` the
candidates are `[1.5, 3, 4, 7]`. -/
theorem numericalThresholds_spec (values : List ℚ) :
    (numericalThresholds values).length = values.length - 1 ∧
    (values.Nodup → numericalThresholds values = distinctMidpoints values) ∧
    numericalThresholds [1, 2, 4, 4, 10] = [3/2, 3, 4, 7] := by
  refine ⟨?_, ?_, ?_⟩
  · simp [numericalThresholds]
  · intro h
    simp [numericalThresholds, distinctMidpoints, List.dedup_eq_self.mpr h]
  · norm_num [numericalThresholds, List.insertionSort, List.orderedInsert,
      List.range_succ]

/-- Witness for `numericalThresholds_spec` at the distinct value list
`[1, 2, 3]`. -/
theorem numericalThresholds_spec_witness :
    ([1, 2, 3] : List ℚ).Nodup ∧
    numericalThresholds [1, 2, 3] = distinctMidpoints [1, 2, 3] :=
  ⟨by norm_num, (numericalThresholds_spec [1, 2, 3]).2.1 (by norm_num)⟩

/-- Characterization of the running-best loop of `__split`, for an arbitrary
starting accumulator: either no feature fires the replacement test and the
accumulator survives, or the result is the evaluation of the first feature
attaining the maximal gain among those clearing the threshold and beating the
starting gain. -/
theorem selectFold_go_spec (mid : ℚ)
    (evalF : String → ℚ × List (List Bool) × List FV) :
    ∀ (feats : List String) (best : SplitResult),
      (feats.foldl (selStep mid evalF) best = best ∧
        ∀ p ∈ feats, ¬(mid ≤ (evalF p).1 ∧ best.inf_gain < (evalF p).1)) ∨
      (∃ pre f post, feats = pre ++ f :: post ∧
        mid ≤ (evalF f).1 ∧ best.inf_gain < (evalF f).1 ∧
        (∀ p ∈ pre, (evalF p).1 < (evalF f).1) ∧
        (∀ p ∈ post, (evalF p).1 ≤ (evalF f).1) ∧
        feats.foldl (selStep mid evalF) best =
          ⟨some f, (evalF f).2.1, (evalF f).2.2, (evalF f).1⟩) := by
  intro feats
  induction feats with
  | nil => exact fun best => Or.inl ⟨rfl, by simp⟩
  | cons f0 rest ih =>
    intro best
    rw [List.foldl_cons]
    by_cases h0 : mid ≤ (evalF f0).1 ∧ best.inf_gain < (evalF f0).1
    · have hstep : selStep mid evalF best f0 =
          ⟨some f0, (evalF f0).2.1, (evalF f0).2.2, (evalF f0).1⟩ := by
        simp [selStep, h0]
      rw [hstep]
      rcases ih ⟨some f0, (evalF f0).2.1, (evalF f0).2.2, (evalF f0).1⟩ with
        ⟨hres, hall⟩ | ⟨pre, f, post, heq, hmid, hgt, hpre, hpost, hres⟩
      · refine Or.inr ⟨[], f0, rest, by simp, h0.1, h0.2, by simp, ?_, hres⟩
        intro p hp
        by_contra hlt
        exact hall p hp ⟨le_trans h0.1 (le_of_not_le hlt), lt_of_not_le hlt⟩
      · refine Or.inr ⟨f0 :: pre, f, post, by simp [heq], hmid,
          lt_trans h0.2 hgt, ?_, hpost, hres⟩
        intro p hp
        rcases List.mem_cons.mp hp with hp | hp
        · exact hp ▸ hgt
        · exact hpre p hp
    · have hstep : selStep mid evalF best f0 = best := by
        simp only [selStep]
        rw [if_neg h0]
      rw [hstep]
      rcases ih best with ⟨hres, hall⟩ | ⟨pre, f, post, heq, hmid, hgt, hpre,
        hpost, hres⟩
      · refine Or.inl ⟨hres, ?_⟩
        intro p hp
        rcases List.mem_cons.mp hp with hp | hp
        · exact hp ▸ h0
        · exact hall p hp
      · refine Or.inr ⟨f0 :: pre, f, post, by simp [heq], hmid, hgt, ?_,
          hpost, hres⟩
        intro p hp
        rcases List.mem_cons.mp hp with hp | hp
        · subst hp
          rcases not_and_or.mp h0 with hbad | hbad
          · exact lt_of_lt_of_le (lt_of_not_le hbad) hmid
          · exact lt_of_le_of_lt (le_of_not_lt hbad) hgt
        · exact hpre p hp

/-- Claim C5: the split selector returns the feature whose best achievable
gain both clears the `min_impurity_decrease` threshold and strictly exceeds
the best gain of every feature considered earlier, ties keeping the earlier
feature of the eligible-feature iteration order (later features never beat an
equal gain), together with the masks, descriptors and gain of that feature;
and when no feature clears the threshold it reports no split. -/
theorem split_selector_spec (imp : List String → List Bool → ℚ) (cfg : Config)
    (catFs : List String) (rankFs : List (String × List String))
    (numFs : List String) (X : Table) (y : List String)
    (parentMask : List Bool) (avail : List String) :
    ((∀ p ∈ avail,
        (evalFeature imp cfg catFs rankFs numFs X y parentMask p).1 <
          cfg.min_impurity_decrease) →
      (split imp cfg catFs rankFs numFs X y parentMask avail).feature = none) ∧
    (∀ f, (split imp cfg catFs rankFs numFs X y parentMask avail).feature =
        some f →
      ∃ pre post, avail = pre ++ f :: post ∧
        cfg.min_impurity_decrease ≤
          (evalFeature imp cfg catFs rankFs numFs X y parentMask f).1 ∧
        (∀ p ∈ pre,
          (evalFeature imp cfg catFs rankFs numFs X y parentMask p).1 <
            (evalFeature imp cfg catFs rankFs numFs X y parentMask f).1) ∧
        (∀ p ∈ post,
          (evalFeature imp cfg catFs rankFs numFs X y parentMask p).1 ≤
            (evalFeature imp cfg catFs rankFs numFs X y parentMask f).1) ∧
        split imp cfg catFs rankFs numFs X y parentMask avail =
          ⟨some f,
            (evalFeature imp cfg catFs rankFs numFs X y parentMask f).2.1,
            (evalFeature imp cfg catFs rankFs numFs X y parentMask f).2.2,
            (evalFeature imp cfg catFs rankFs numFs X y parentMask f).1⟩) := by
  have hspec := selectFold_go_spec cfg.min_impurity_decrease
    (evalFeature imp cfg catFs rankFs numFs X y parentMask) avail
    ⟨none, [], [], 0⟩
  constructor
  · intro hall
    rcases hspec with ⟨hres, _⟩ | ⟨pre, f, post, heq, hmid, _, _, _, _⟩
    · show (selectFold cfg.min_impurity_decrease
        (evalFeature imp cfg catFs rankFs numFs X y parentMask) avail).feature
          = none
      rw [selectFold, hres]
    · have hf : f ∈ avail := heq ▸ List.mem_append_right pre (List.mem_cons_self f post)
      exact absurd hmid (not_le.mpr (hall f hf))
  · intro f hf
    rcases hspec with ⟨hres, _⟩ | ⟨pre, f0, post, heq, hmid, _, hpre, hpost,
      hres⟩
    · have : (selectFold cfg.min_impurity_decrease
          (evalFeature imp cfg catFs rankFs numFs X y parentMask)
          avail).feature = none := by rw [selectFold, hres]
      rw [split, this] at hf
      exact absurd hf (by simp)
    · have hsplit : split imp cfg catFs rankFs numFs X y parentMask avail =
          ⟨some f0, (evalFeature imp cfg catFs rankFs numFs X y parentMask
            f0).2.1,
            (evalFeature imp cfg catFs rankFs numFs X y parentMask f0).2.2,
            (evalFeature imp cfg catFs rankFs numFs X y parentMask f0).1⟩ := by
        rw [split, selectFold, hres]
      have hf0 : f0 = f := by
        rw [hsplit] at hf
        exact Option.some_injective _ hf
      subst hf0
      exact ⟨pre, post, heq, hmid, hpre, hpost, hsplit⟩

/-- Witness for `split_selector_spec`: a two-row table whose only categorical
feature carries a single distinct value has best gain 0, below the configured
threshold 1, so the selector reports no split. -/
theorem split_selector_spec_witness :
    (split (giniOf ["a", "b"]) ⟨2, 1, 1, none, none⟩ ["F"] [] []
      ⟨["F"], [fun _ => Cell.str "x", fun _ => Cell.str "x"]⟩
      ["a", "b"] [true, true] ["F"]).feature = none := by
  apply (split_selector_spec (giniOf ["a", "b"]) ⟨2, 1, 1, none, none⟩
    ["F"] [] [] ⟨["F"], [fun _ => Cell.str "x", fun _ => Cell.str "x"]⟩
    ["a", "b"] [true, true] ["F"]).1
  intro p hp
  simp only [List.mem_singleton] at hp
  subst hp
  norm_num [evalFeature, bestCategoricalSplit, availableValues, select,
    Table.col, Cell.strVal, List.dedup_cons_of_mem,
    List.dedup_cons_of_not_mem, List.insertionSort]

/-- Bit `i` of a boolean mask, false beyond the end. -/
def maskGet (m : List Bool) (i : ℕ) : Bool := m.getD i false

theorem maskGet_maskAnd (a b : List Bool) (i : ℕ) :
    maskGet (maskAnd a b) i = (maskGet a i && maskGet b i) := by
  simp only [maskGet, maskAnd, List.getD_eq_getElem?_getD, List.getElem?_zipWith']
  cases a[i]? <;> cases b[i]? <;> simp

theorem maskGet_maskOr (a b : List Bool) (i : ℕ) (h : a.length = b.length) :
    maskGet (maskOr a b) i = (maskGet a i || maskGet b i) := by
  simp only [maskGet, maskOr, List.getD_eq_getElem?_getD, List.getElem?_zipWith']
  cases ha : a[i]? with
  | none =>
      have hb : b[i]? = none := by
        rw [List.getElem?_eq_none_iff] at ha ⊢
        omega
      simp [hb]
  | some x =>
      obtain ⟨hi, -⟩ := List.getElem?_eq_some_iff.mp ha
      have hib : i < b.length := by omega
      have hb : b[i]? = some b[i] := List.getElem?_eq_getElem hib
      simp [hb]

theorem maskGet_map (col : List Cell) (p : Cell → Bool) (i : ℕ) :
    maskGet (col.map p) i = (col[i]?.map p).getD false := by
  simp [maskGet, List.getD_eq_getElem?_getD]

theorem length_maskAnd (a b : List Bool) :
    (maskAnd a b).length = min a.length b.length := by
  simp [maskAnd]

theorem length_maskOr (a b : List Bool) :
    (maskOr a b).length = min a.length b.length := by
  simp [maskOr]

/-- An accumulator property preserved by every step survives a left fold. -/
theorem foldl_preserve {α β : Type*} (P : β → Prop) (step : β → α → β)
    (l : List α) (b : β) (hb : P b)
    (hstep : ∀ b a, P b → P (step b a)) : P (l.foldl step b) := by
  induction l generalizing b with
  | nil => exact hb
  | cons x xs ih => exact ih (step b x) (hstep b x hb)

/-- Bit `i` of a child mask of `__categorical_split`: the row must be in the
parent subset, and have its value in the block or missing. -/
theorem categoricalSplit_maskGet (X : Table) (pm : List Bool) (f : String)
    (b : List String) (i : ℕ) (hlen : pm.length = (X.col f).length) :
    maskGet (maskAnd pm (maskOr ((X.col f).map (fun c => c.isin b))
      (maskAnd pm ((X.col f).map Cell.isNa)))) i =
    (maskGet pm i &&
      ((((X.col f)[i]?).map (fun c => c.isin b)).getD false ||
        (maskGet pm i && (((X.col f)[i]?).map Cell.isNa).getD false))) := by
  rw [maskGet_maskAnd, maskGet_maskOr, maskGet_maskAnd, maskGet_map,
    maskGet_map]
  simp only [List.length_map, length_maskAnd, List.length_map]
  omega

/-- A row of the parent subset with a missing split-feature value lands in
every child mask built by `__categorical_split`. -/
theorem categoricalSplit_na_mem (imp : List String → List Bool → ℚ) (msl : ℕ)
    (X : Table) (y : List String) (pm : List Bool) (f : String)
    (fvs : List (List String)) (i : ℕ)
    (hlen : pm.length = (X.col f).length)
    (hpm : maskGet pm i = true) (hna : (X.col f)[i]? = some Cell.nan) :
    ∀ m ∈ (categoricalSplit imp msl X y pm f fvs).2, maskGet m i = true := by
  intro m hm
  have hbit : ∀ b : List String,
      maskGet (maskAnd pm (maskOr ((X.col f).map (fun c => c.isin b))
        (maskAnd pm ((X.col f).map Cell.isNa)))) i = true := by
    intro b
    rw [categoricalSplit_maskGet X pm f b i hlen, hna, hpm]
    simp [Cell.isin, Cell.isNa]
  unfold categoricalSplit at hm
  by_cases hrej : (fvs.map (fun list_ =>
      maskAnd pm (maskOr ((X.col f).map (fun c => c.isin list_))
        (maskAnd pm ((X.col f).map Cell.isNa))))).any
      (fun m => maskSum m < msl)
  · simp only [hrej, if_true] at hm
    exact absurd hm (List.not_mem_nil m)
  · simp only [hrej, if_false] at hm
    obtain ⟨b, -, rfl⟩ := List.mem_map.mp hm
    exact hbit b

/-- A row of the parent subset with a missing split-feature value lands in
every child mask returned by `__best_categorical_split`. -/
theorem bestCategoricalSplit_na_mem (imp : List String → List Bool → ℚ)
    (msl : ℕ) (mc : Option ℕ) (X : Table) (y : List String) (pm : List Bool)
    (f : String) (i : ℕ) (hlen : pm.length = (X.col f).length)
    (hpm : maskGet pm i = true) (hna : (X.col f)[i]? = some Cell.nan) :
    ∀ m ∈ (bestCategoricalSplit imp msl mc X y pm f).2.1,
      maskGet m i = true := by
  unfold bestCategoricalSplit
  set vals := availableValues pm (X.col f) with hv
  by_cases hle : vals.length ≤ 1
  · rw [if_pos hle]
    simp
  · rw [if_neg hle]
    apply foldl_preserve
      (fun (r : ℚ × List (List Bool) × List (List String)) =>
        ∀ m ∈ r.2.1, maskGet m i = true)
    · simp
    · intro best fv hbest
      by_cases hup : best.1 < (categoricalSplit imp msl X y pm f fv).1
      · simpa [hup] using
          categoricalSplit_na_mem imp msl X y pm f fv i hlen hpm hna
      · simpa [hup] using hbest

/-- A row of the parent subset with a missing split-feature value lands in
both child masks built by `__rank_split`. -/
theorem rankSplit_na_mem (imp : List String → List Bool → ℚ) (msl : ℕ)
    (X : Table) (y : List String) (pm : List Bool) (f : String)
    (fv : List String × List String) (i : ℕ)
    (hlen : pm.length = (X.col f).length)
    (hpm : maskGet pm i = true) (hna : (X.col f)[i]? = some Cell.nan) :
    ∀ m ∈ (rankSplit imp msl X y pm f fv).2, maskGet m i = true := by
  intro m hm
  have hbit : ∀ p : Cell → Bool,
      maskGet (maskOr (maskAnd pm ((X.col f).map p))
        (maskAnd pm ((X.col f).map Cell.isNa))) i = true := by
    intro p
    rw [maskGet_maskOr _ _ _ (by simp [length_maskAnd]), maskGet_maskAnd,
      maskGet_maskAnd, maskGet_map, maskGet_map, hna, hpm]
    simp [Cell.isNa]
  unfold rankSplit at hm
  by_cases hrej : maskSum (maskOr (maskAnd pm ((X.col f).map
      (fun c => c.isin fv.1))) (maskAnd pm ((X.col f).map Cell.isNa))) < msl ∨
      maskSum (maskOr (maskAnd pm ((X.col f).map (fun c => c.isin fv.2)))
        (maskAnd pm ((X.col f).map Cell.isNa))) < msl
  · simp only [hrej, if_true] at hm
    exact absurd hm (List.not_mem_nil m)
  · simp only [hrej, if_false] at hm
    rcases List.mem_cons.mp hm with rfl | hm
    · exact hbit _
    · rcases List.mem_cons.mp hm with rfl | hm
      · exact hbit _
      · exact absurd hm (List.not_mem_nil m)

/-- A row of the parent subset with a missing split-feature value lands in
both child masks returned by `__numerical_split`. -/
theorem numericalSplit_na_mem (imp : List String → List Bool → ℚ) (msl : ℕ)
    (X : Table) (y : List String) (pm : List Bool) (f : String) (i : ℕ)
    (hlen : pm.length = (X.col f).length)
    (hpm : maskGet pm i = true) (hna : (X.col f)[i]? = some Cell.nan) :
    ∀ m ∈ (numericalSplit imp msl X y pm f).2.1, maskGet m i = true := by
  have hbit : ∀ p : Cell → Bool,
      maskGet (maskOr (maskAnd pm ((X.col f).map p))
        (maskAnd pm ((X.col f).map Cell.isNa))) i = true := by
    intro p
    rw [maskGet_maskOr _ _ _ (by simp [length_maskAnd]), maskGet_maskAnd,
      maskGet_maskAnd, maskGet_map, maskGet_map, hna, hpm]
    simp [Cell.isNa]
  unfold numericalSplit
  apply foldl_preserve
    (fun (r : ℚ × List (List Bool) × List FV) => ∀ m ∈ r.2.1, maskGet m i = true)
  · simp
  · intro best t hbest
    by_cases hrej : maskSum (maskOr (maskAnd pm ((X.col f).map
        (fun c => c.leB t))) (maskAnd pm ((X.col f).map Cell.isNa))) < msl ∨
        maskSum (maskOr (maskAnd pm ((X.col f).map (fun c => c.gtB t)))
          (maskAnd pm ((X.col f).map Cell.isNa))) < msl
    · simpa [hrej] using hbest
    · simp only [hrej, if_false]
      by_cases hup : best.1 < informationGain imp y pm
          [maskOr (maskAnd pm ((X.col f).map (fun c => c.leB t)))
            (maskAnd pm ((X.col f).map Cell.isNa)),
           maskOr (maskAnd pm ((X.col f).map (fun c => c.gtB t)))
            (maskAnd pm ((X.col f).map Cell.isNa))]
      · simp only [hup, if_true]
        intro m hm
        rcases List.mem_cons.mp hm with rfl | hm
        · exact hbit _
        · rcases List.mem_cons.mp hm with rfl | hm
          · exact hbit _
          · exact absurd hm (List.not_mem_nil m)
      · simpa [hup] using hbest

theorem maskSum_nil : maskSum [] = 0 := rfl

theorem maskSum_cons (b : Bool) (m : List Bool) :
    maskSum (b :: m) = maskSum m + (if b then 1 else 0) := by
  simp [maskSum, List.count_cons]

theorem sum_map_add {α : Type*} (l : List α) (f g : α → ℕ) :
    (l.map (fun a => f a + g a)).sum = (l.map f).sum + (l.map g).sum := by
  induction l with
  | nil => rfl
  | cons x xs ih => simp [ih]; omega

theorem sum_map_ite {α : Type*} (l : List α) (p : α → Bool) :
    (l.map (fun a => if p a then 1 else 0)).sum = l.countP p := by
  induction l with
  | nil => rfl
  | cons x xs ih =>
      by_cases hx : p x <;> simp [List.countP_cons, hx, ih] <;> omega

/-- Row-count bookkeeping of a multi-way split whose child masks all have the
form `parent & (branch-test | (parent & isna))`: the child sizes add up to the
non-missing parent rows (each in exactly one branch) plus one copy of every
missing parent row per child. -/
theorem splitMaskSum (ps : List (Cell → Bool)) :
    ∀ (pm : List Bool) (col : List Cell), pm.length = col.length →
      (∀ c ∈ select pm col, c.isNa = false → ps.countP (fun p => p c) = 1) →
      ((ps.map (fun p => maskAnd pm (maskOr (col.map p)
          (maskAnd pm (col.map Cell.isNa))))).map maskSum).sum =
        maskSum (maskAnd pm (col.map Cell.notNa)) +
          ps.length * maskSum (maskAnd pm (col.map Cell.isNa)) := by
  intro pm
  induction pm with
  | nil =>
      intro col _ _
      simp [maskAnd, maskOr, maskSum]
  | cons p pm ih =>
      intro col hlen hcover
      match col with
      | [] => simp at hlen
      | c :: col =>
        have hlen2 : pm.length = col.length := by
          simpa using hlen
        have hcover2 : ∀ c0 ∈ select pm col, c0.isNa = false →
            ps.countP (fun q => q c0) = 1 := by
          intro c0 hc0 hna
          apply hcover c0 _ hna
          by_cases hp : p <;> simp [select, hp] at hc0 ⊢ <;> tauto
        have hstep : ∀ q : Cell → Bool,
            maskAnd (p :: pm) (maskOr ((c :: col).map q)
              (maskAnd (p :: pm) ((c :: col).map Cell.isNa))) =
            (p && (q c || (p && c.isNa))) ::
              maskAnd pm (maskOr (col.map q)
                (maskAnd pm (col.map Cell.isNa))) := by
          intro q
          simp [maskAnd, maskOr]
        have hrw : ((ps.map (fun q => maskAnd (p :: pm)
            (maskOr ((c :: col).map q)
              (maskAnd (p :: pm) ((c :: col).map Cell.isNa))))).map
                maskSum).sum =
            ((ps.map (fun q => maskAnd pm (maskOr (col.map q)
              (maskAnd pm (col.map Cell.isNa))))).map maskSum).sum +
            (ps.map (fun q => if p && (q c || (p && c.isNa)) then 1 else 0)).sum := by
          simp only [List.map_map]
          rw [← sum_map_add]
          refine congrArg List.sum (List.map_congr_left ?_)
          intro q hq
          simp only [Function.comp]
          rw [hstep q, maskSum_cons]
        rw [hrw, ih col hlen2 hcover2]
        have hna : maskAnd (p :: pm) ((c :: col).map Cell.isNa) =
            (p && c.isNa) :: maskAnd pm (col.map Cell.isNa) := by
          simp [maskAnd]
        have hnotna : maskAnd (p :: pm) ((c :: col).map Cell.notNa) =
            (p && c.notNa) :: maskAnd pm (col.map Cell.notNa) := by
          simp [maskAnd]
        rw [hna, hnotna, maskSum_cons, maskSum_cons]
        by_cases hp : p
        · by_cases hc : c.isNa
          · have hheads : (ps.map (fun q =>
                if p && (q c || (p && c.isNa)) then 1 else 0)).sum = ps.length := by
              simp [hp, hc, List.map_const, List.sum_replicate]
            rw [hheads]
            have : c.notNa = false := by simp [Cell.notNa, hc]
            simp [hp, hc, this]
            ring
          · have hcsel : c ∈ select (p :: pm) (c :: col) := by
              simp [select, hp]
            have hcount := hcover c hcsel (by simpa using hc)
            have hheads : (ps.map (fun q =>
                if p && (q c || (p && c.isNa)) then 1 else 0)).sum = 1 := by
              have : ∀ q : Cell → Bool,
                  (if p && (q c || (p && c.isNa)) then 1 else 0) =
                  (if q c then 1 else 0) := by
                intro q
                simp [hp, hc]
              simp only [this]
              rw [sum_map_ite, hcount]
            rw [hheads]
            have : c.notNa = true := by simp [Cell.notNa, hc]
            simp [hp, hc, this]
            ring
        · have hheads : (ps.map (fun q =>
              if p && (q c || (p && c.isNa)) then 1 else 0)).sum = 0 := by
            simp [hp, List.map_const, List.sum_replicate]
          rw [hheads]
          simp [hp]

/-- The binary child masks of `__rank_split` and `__numerical_split`, built as
`(parent & test) | (parent & isna)`, coincide with the categorical form
`parent & (test | (parent & isna))`. -/
theorem maskOr_and_form (pm : List Bool) :
    ∀ (a b : List Bool), maskOr (maskAnd pm a) (maskAnd pm b) =
      maskAnd pm (maskOr a (maskAnd pm b)) := by
  induction pm with
  | nil => intro a b; simp [maskAnd, maskOr]
  | cons p pm ih =>
      intro a b
      match a, b with
      | [], [] => simp [maskAnd, maskOr]
      | [], x :: b => simp [maskAnd, maskOr]
      | x :: a, [] => simp [maskAnd, maskOr]
      | x :: a, z :: b =>
          simp only [maskAnd, maskOr, List.zipWith_cons_cons]
          refine congrArg₂ _ ?_ (ih a b)
          cases p <;> cases x <;> cases z <;> rfl

/-- A row of the parent subset with a missing split-feature value lands in
every child mask returned by `__best_rank_split`. -/
theorem bestRankSplit_na_mem (imp : List String → List Bool → ℚ) (msl : ℕ)
    (rv : List String) (X : Table) (y : List String) (pm : List Bool)
    (f : String) (i : ℕ) (hlen : pm.length = (X.col f).length)
    (hpm : maskGet pm i = true) (hna : (X.col f)[i]? = some Cell.nan) :
    ∀ m ∈ (bestRankSplit imp msl rv X y pm f).2.1, maskGet m i = true := by
  unfold bestRankSplit
  apply foldl_preserve
    (fun (r : ℚ × List (List Bool) × (List String × List String)) =>
      ∀ m ∈ r.2.1, maskGet m i = true)
  · simp
  · intro best fv hbest
    by_cases hup : best.1 < (rankSplit imp msl X y pm f fv).1
    · simpa [hup] using rankSplit_na_mem imp msl X y pm f fv i hlen hpm hna
    · simpa [hup] using hbest

/-- Parent rows are exactly those with non-missing value plus those with
missing value on any column of equal length. -/
theorem maskSum_split_na (pm : List Bool) :
    ∀ col : List Cell, pm.length = col.length →
      maskSum (maskAnd pm (col.map Cell.notNa)) +
        maskSum (maskAnd pm (col.map Cell.isNa)) = maskSum pm := by
  induction pm with
  | nil =>
      intro col _
      simp [maskAnd, maskSum]
  | cons p pm ih =>
      intro col h
      match col with
      | [] => simp at h
      | c :: col =>
          have hrec := ih col (by simpa using h)
          simp only [List.map_cons, maskAnd, List.zipWith_cons_cons,
            maskSum_cons] at hrec ⊢
          cases p <;> cases hc : c.isNa <;> simp [Cell.notNa, hc] <;> omega

/-- Claim C6: a parent-subset row whose split-feature value is missing is a
member of every child mask produced by each of the three split evaluators
(missing rows are duplicated into all children); consequently the child sizes
of an accepted candidate sum to the non-missing parent count plus one copy of
every missing parent row per child, so one missing row inflates the total
child count over the parent size by (number of children - 1). -/
theorem missing_value_duplication (imp : List String → List Bool → ℚ)
    (msl : ℕ) (mc : Option ℕ) (X : Table) (y : List String) (pm : List Bool)
    (f : String) (i : ℕ) (hlen : pm.length = (X.col f).length)
    (hpm : maskGet pm i = true) (hna : (X.col f)[i]? = some Cell.nan) :
    (∀ m ∈ (bestCategoricalSplit imp msl mc X y pm f).2.1,
      maskGet m i = true) ∧
    (∀ rv, ∀ m ∈ (bestRankSplit imp msl rv X y pm f).2.1,
      maskGet m i = true) ∧
    (∀ m ∈ (numericalSplit imp msl X y pm f).2.1, maskGet m i = true) ∧
    (∀ fvs : List (List String),
      (∀ c ∈ select pm (X.col f), c.isNa = false →
        fvs.countP (fun b => c.isin b) = 1) →
      ((categoricalSplit imp msl X y pm f fvs).2.map maskSum).sum =
          maskSum (maskAnd pm ((X.col f).map Cell.notNa)) +
            fvs.length * maskSum (maskAnd pm ((X.col f).map Cell.isNa)) ∨
        (categoricalSplit imp msl X y pm f fvs).2 = []) ∧
    (∀ fv : List String × List String,
      (∀ c ∈ select pm (X.col f), c.isNa = false →
        [fv.1, fv.2].countP (fun b => c.isin b) = 1) →
      ((rankSplit imp msl X y pm f fv).2.map maskSum).sum =
          maskSum (maskAnd pm ((X.col f).map Cell.notNa)) +
            2 * maskSum (maskAnd pm ((X.col f).map Cell.isNa)) ∨
        (rankSplit imp msl X y pm f fv).2 = []) ∧
    ((∀ c ∈ select pm (X.col f), c.isNa = false → ∃ q, c = Cell.num q) →
      ∀ t : ℚ,
        maskSum (maskOr (maskAnd pm ((X.col f).map (fun c => c.leB t)))
            (maskAnd pm ((X.col f).map Cell.isNa))) +
          maskSum (maskOr (maskAnd pm ((X.col f).map (fun c => c.gtB t)))
            (maskAnd pm ((X.col f).map Cell.isNa))) =
          maskSum (maskAnd pm ((X.col f).map Cell.notNa)) +
            2 * maskSum (maskAnd pm ((X.col f).map Cell.isNa))) ∧
    (maskSum (maskAnd pm ((X.col f).map Cell.notNa)) +
      maskSum (maskAnd pm ((X.col f).map Cell.isNa)) = maskSum pm) := by
  refine ⟨bestCategoricalSplit_na_mem imp msl mc X y pm f i hlen hpm hna,
    fun rv => bestRankSplit_na_mem imp msl rv X y pm f i hlen hpm hna,
    numericalSplit_na_mem imp msl X y pm f i hlen hpm hna, ?_, ?_, ?_,
    maskSum_split_na pm (X.col f) hlen⟩
  · intro fvs hcover
    unfold categoricalSplit
    by_cases hrej : (fvs.map (fun list_ =>
        maskAnd pm (maskOr ((X.col f).map (fun c => c.isin list_))
          (maskAnd pm ((X.col f).map Cell.isNa))))).any
        (fun m => maskSum m < msl)
    · exact Or.inr (by simp [hrej])
    · refine Or.inl ?_
      simp only [hrej, if_false]
      have := splitMaskSum (fvs.map (fun b c => c.isin b)) pm (X.col f) hlen
        (by
          intro c hc hcna
          rw [List.countP_map]
          exact hcover c hc hcna)
      simpa [List.map_map, Function.comp] using this
  · intro fv hcover
    unfold rankSplit
    by_cases hrej : maskSum (maskOr (maskAnd pm ((X.col f).map
        (fun c => c.isin fv.1))) (maskAnd pm ((X.col f).map Cell.isNa))) < msl ∨
        maskSum (maskOr (maskAnd pm ((X.col f).map (fun c => c.isin fv.2)))
          (maskAnd pm ((X.col f).map Cell.isNa))) < msl
    · exact Or.inr (by simp [hrej])
    · refine Or.inl ?_
      simp only [hrej, if_false]
      have := splitMaskSum ([fv.1, fv.2].map (fun b c => c.isin b)) pm
        (X.col f) hlen
        (by
          intro c hc hcna
          rw [List.countP_map]
          exact hcover c hc hcna)
      simp only [List.map_cons, List.map_nil, List.length_cons,
        List.length_nil] at this
      rw [maskOr_and_form pm ((X.col f).map (fun c => c.isin fv.1)) _,
        maskOr_and_form pm ((X.col f).map (fun c => c.isin fv.2)) _]
      simpa using this
  · intro hnum t
    have := splitMaskSum [fun c => c.leB t, fun c => c.gtB t] pm (X.col f)
      hlen
      (by
        intro c hc hcna
        obtain ⟨q, rfl⟩ := hnum c hc hcna
        by_cases hq : q ≤ t <;>
          simp [List.countP_cons, Cell.leB, Cell.gtB, hq, not_le.mp,
            lt_of_not_le] <;> omega)
    simp only [List.map_cons, List.map_nil, List.length_cons,
      List.length_nil] at this
    rw [maskOr_and_form pm ((X.col f).map (fun c => c.leB t)) _,
      maskOr_and_form pm ((X.col f).map (fun c => c.gtB t)) _]
    simpa using this

/-- Witness for `missing_value_duplication` on a two-row table whose second
row has a missing feature value. -/
theorem missing_value_duplication_witness :
    maskSum (maskAnd [true, true]
      ((Table.col ⟨["F"], [fun _ => Cell.str "x", fun _ => Cell.nan]⟩
        "F").map Cell.notNa)) +
    maskSum (maskAnd [true, true]
      ((Table.col ⟨["F"], [fun _ => Cell.str "x", fun _ => Cell.nan]⟩
        "F").map Cell.isNa)) = maskSum [true, true] :=
  (missing_value_duplication (giniOf []) 1 none
    ⟨["F"], [fun _ => Cell.str "x", fun _ => Cell.nan]⟩ [] [true, true] "F" 1
    (by simp [Table.col]) rfl rfl).2.2.2.2.2.2

mutual

/-- Every strict descendant of a node (its children and their descendants). -/
def Node.subnodes : Node → List Node
  | .mk _ _ _ _ _ _ cs => cs ++ subnodesList cs

/-- Descendants of every node of a list. -/
def subnodesList : List Node → List Node
  | [] => []
  | c :: rest => c.subnodes ++ subnodesList rest

end

theorem mem_subnodesList {n : Node} :
    ∀ {cs : List Node}, n ∈ subnodesList cs ↔ ∃ c ∈ cs, n ∈ c.subnodes := by
  intro cs
  induction cs with
  | nil => simp [subnodesList]
  | cons c rest ih =>
      simp only [subnodesList, List.mem_append, ih, List.mem_cons]
      constructor
      · rintro (h | ⟨c0, hc0, hn⟩)
        · exact ⟨c, Or.inl rfl, h⟩
        · exact ⟨c0, Or.inr hc0, hn⟩
      · rintro ⟨c0, hc0 | hc0, hn⟩
        · exact Or.inl (hc0 ▸ hn)
        · exact Or.inr ⟨c0, hc0, hn⟩

theorem subnodes_mk (f : Option String) (fv : Option FV) (i : ℚ) (s : ℕ)
    (d : List ℕ) (l : String) (cs : List Node) :
    (Node.mk f fv i s d l cs).subnodes = cs ++ subnodesList cs := by
  rw [Node.subnodes]

theorem childs_mk (f : Option String) (fv : Option FV) (i : ℚ) (s : ℕ)
    (d : List ℕ) (l : String) (cs : List Node) :
    (Node.mk f fv i s d l cs).childs = cs := rfl

/-- The sample count recorded on every generated node is the size of the mask
it was generated from. -/
theorem generateNode_samples (imp : List String → List Bool → ℚ)
    (cfg : Config) (catFs : List String)
    (rankFs : List (String × List String)) (numFs : List String) (X : Table)
    (y classNames : List String) (fuel : ℕ) (pm : List Bool)
    (fv : Option FV) (depth : ℕ) (avail : List String)
    (sc : List (String × List String)) :
    (generateNode imp cfg catFs rankFs numFs X y classNames fuel pm fv depth
      avail sc).samples = maskSum pm := by
  cases fuel <;> rfl

/-- Child masks returned by one accepted `__categorical_split` candidate all
have at least `min_samples_leaf` rows. -/
theorem categoricalSplit_msl (imp : List String → List Bool → ℚ) (msl : ℕ)
    (X : Table) (y : List String) (pm : List Bool) (f : String)
    (fvs : List (List String)) :
    ∀ m ∈ (categoricalSplit imp msl X y pm f fvs).2, msl ≤ maskSum m := by
  unfold categoricalSplit
  by_cases hrej : (fvs.map (fun list_ =>
      maskAnd pm (maskOr ((X.col f).map (fun c => c.isin list_))
        (maskAnd pm ((X.col f).map Cell.isNa))))).any
      (fun m => maskSum m < msl)
  · simp [hrej]
  · simp only [hrej, if_false]
    intro m hm
    simp only [List.any_eq_true, decide_eq_true_eq, not_exists, not_and,
      not_lt] at hrej
    exact hrej m hm

/-- Child masks returned by `__best_categorical_split` all have at least
`min_samples_leaf` rows. -/
theorem bestCategoricalSplit_msl (imp : List String → List Bool → ℚ)
    (msl : ℕ) (mc : Option ℕ) (X : Table) (y : List String) (pm : List Bool)
    (f : String) :
    ∀ m ∈ (bestCategoricalSplit imp msl mc X y pm f).2.1, msl ≤ maskSum m := by
  unfold bestCategoricalSplit
  set vals := availableValues pm (X.col f) with hv
  by_cases hle : vals.length ≤ 1
  · rw [if_pos hle]
    simp
  · rw [if_neg hle]
    apply foldl_preserve
      (fun (r : ℚ × List (List Bool) × List (List String)) =>
        ∀ m ∈ r.2.1, msl ≤ maskSum m)
    · simp
    · intro best fv hbest
      by_cases hup : best.1 < (categoricalSplit imp msl X y pm f fv).1
      · simpa [hup] using categoricalSplit_msl imp msl X y pm f fv
      · simpa [hup] using hbest

/-- Child masks returned by one accepted `__rank_split` candidate both have at
least `min_samples_leaf` rows. -/
theorem rankSplit_msl (imp : List String → List Bool → ℚ) (msl : ℕ)
    (X : Table) (y : List String) (pm : List Bool) (f : String)
    (fv : List String × List String) :
    ∀ m ∈ (rankSplit imp msl X y pm f fv).2, msl ≤ maskSum m := by
  unfold rankSplit
  by_cases hrej : maskSum (maskOr (maskAnd pm ((X.col f).map
      (fun c => c.isin fv.1))) (maskAnd pm ((X.col f).map Cell.isNa))) < msl ∨
      maskSum (maskOr (maskAnd pm ((X.col f).map (fun c => c.isin fv.2)))
        (maskAnd pm ((X.col f).map Cell.isNa))) < msl
  · simp [hrej]
  · simp only [hrej, if_false]
    push_neg at hrej
    intro m hm
    rcases List.mem_cons.mp hm with rfl | hm
    · omega
    · rcases List.mem_cons.mp hm with rfl | hm
      · omega
      · exact absurd hm (List.not_mem_nil m)

/-- Child masks returned by `__best_rank_split` both have at least
`min_samples_leaf` rows. -/
theorem bestRankSplit_msl (imp : List String → List Bool → ℚ) (msl : ℕ)
    (rv : List String) (X : Table) (y : List String) (pm : List Bool)
    (f : String) :
    ∀ m ∈ (bestRankSplit imp msl rv X y pm f).2.1, msl ≤ maskSum m := by
  unfold bestRankSplit
  apply foldl_preserve
    (fun (r : ℚ × List (List Bool) × (List String × List String)) =>
      ∀ m ∈ r.2.1, msl ≤ maskSum m)
  · simp
  · intro best fv hbest
    by_cases hup : best.1 < (rankSplit imp msl X y pm f fv).1
    · simpa [hup] using rankSplit_msl imp msl X y pm f fv
    · simpa [hup] using hbest

/-- Child masks returned by `__numerical_split` both have at least
`min_samples_leaf` rows. -/
theorem numericalSplit_msl (imp : List String → List Bool → ℚ) (msl : ℕ)
    (X : Table) (y : List String) (pm : List Bool) (f : String) :
    ∀ m ∈ (numericalSplit imp msl X y pm f).2.1, msl ≤ maskSum m := by
  unfold numericalSplit
  apply foldl_preserve
    (fun (r : ℚ × List (List Bool) × List FV) =>
      ∀ m ∈ r.2.1, msl ≤ maskSum m)
  · simp
  · intro best t hbest
    by_cases hrej : maskSum (maskOr (maskAnd pm ((X.col f).map
        (fun c => c.leB t))) (maskAnd pm ((X.col f).map Cell.isNa))) < msl ∨
        maskSum (maskOr (maskAnd pm ((X.col f).map (fun c => c.gtB t)))
          (maskAnd pm ((X.col f).map Cell.isNa))) < msl
    · simpa [hrej] using hbest
    · simp only [hrej, if_false]
      push_neg at hrej
      by_cases hup : best.1 < informationGain imp y pm
          [maskOr (maskAnd pm ((X.col f).map (fun c => c.leB t)))
            (maskAnd pm ((X.col f).map Cell.isNa)),
           maskOr (maskAnd pm ((X.col f).map (fun c => c.gtB t)))
            (maskAnd pm ((X.col f).map Cell.isNa))]
      · simp only [hup, if_true]
        intro m hm
        rcases List.mem_cons.mp hm with rfl | hm
        · omega
        · rcases List.mem_cons.mp hm with rfl | hm
          · omega
          · exact absurd hm (List.not_mem_nil m)
      · simpa [hup] using hbest

/-- Masks attached to whatever feature the dispatch of `__split` evaluates all
have at least `min_samples_leaf` rows. -/
theorem evalFeature_msl (imp : List String → List Bool → ℚ) (cfg : Config)
    (catFs : List String) (rankFs : List (String × List String))
    (numFs : List String) (X : Table) (y : List String) (pm : List Bool)
    (f : String) :
    ∀ m ∈ (evalFeature imp cfg catFs rankFs numFs X y pm f).2.1,
      cfg.min_samples_leaf ≤ maskSum m := by
  unfold evalFeature
  by_cases h1 : f ∈ catFs
  · simpa [h1] using bestCategoricalSplit_msl imp cfg.min_samples_leaf
      cfg.max_childs X y pm f
  · by_cases h2 : f ∈ rankFs.map Prod.fst
    · simpa [h1, h2] using bestRankSplit_msl imp cfg.min_samples_leaf
        (((rankFs.find? (fun p => p.1 == f)).map Prod.snd).getD []) X y pm f
    · by_cases h3 : f ∈ numFs
      · simpa [h1, h2, h3] using numericalSplit_msl imp
          cfg.min_samples_leaf X y pm f
      · simp [h1, h2, h3]

/-- Masks returned by the split selector all have at least
`min_samples_leaf` rows. -/
theorem split_msl (imp : List String → List Bool → ℚ) (cfg : Config)
    (catFs : List String) (rankFs : List (String × List String))
    (numFs : List String) (X : Table) (y : List String) (pm : List Bool)
    (avail : List String) :
    ∀ m ∈ (split imp cfg catFs rankFs numFs X y pm avail).masks,
      cfg.min_samples_leaf ≤ maskSum m := by
  rcases selectFold_go_spec cfg.min_impurity_decrease
      (evalFeature imp cfg catFs rankFs numFs X y pm) avail
      ⟨none, [], [], 0⟩ with ⟨hres, -⟩ | ⟨pre, f, post, -, -, -, -, -, hres⟩
  · intro m hm
    rw [split, selectFold, hres] at hm
    exact absurd hm (List.not_mem_nil m)
  · intro m hm
    rw [split, selectFold, hres] at hm
    exact evalFeature_msl imp cfg catFs rankFs numFs X y pm f m hm

/-- Every strict descendant of a generated node has at least
`min_samples_leaf` samples. -/
theorem generateNode_msl (imp : List String → List Bool → ℚ) (cfg : Config)
    (catFs : List String) (rankFs : List (String × List String))
    (numFs : List String) (X : Table) (y classNames : List String) :
    ∀ (fuel : ℕ) (pm : List Bool) (fv : Option FV) (depth : ℕ)
      (avail : List String) (sc : List (String × List String)),
      ∀ n ∈ (generateNode imp cfg catFs rankFs numFs X y classNames fuel pm
        fv depth avail sc).subnodes, cfg.min_samples_leaf ≤ n.samples := by
  intro fuel
  induction fuel with
  | zero =>
      intro pm fv depth avail sc n hn
      simp [generateNode, subnodes_mk, subnodesList] at hn
  | succ fuel ih =>
      intro pm fv depth avail sc n hn
      simp only [generateNode, subnodes_mk] at hn
      by_cases htry : (decide (cfg.min_samples_split ≤ maskSum pm) &&
          maxDepthOk cfg.max_depth depth) = true
      · rw [if_pos htry] at hn
        cases hf : (split imp cfg catFs rankFs numFs X y pm avail).feature with
        | none =>
            rw [hf] at hn
            simp [subnodesList] at hn
        | some f =>
            rw [hf] at hn
            rcases List.mem_append.mp hn with hn | hn
            · obtain ⟨p, hp, rfl⟩ := List.mem_map.mp hn
              rw [generateNode_samples]
              exact split_msl imp cfg catFs rankFs numFs X y pm avail p.1
                (List.of_mem_zip hp).1
            · obtain ⟨c, hc, hnc⟩ := mem_subnodesList.mp hn
              obtain ⟨p, hp, rfl⟩ := List.mem_map.mp hc
              exact ih p.1 (some p.2) (depth + 1) _ _ n hnc
      · rw [if_neg htry] at hn
        simp [subnodesList] at hn

/-- Claim C7: a candidate partition with any child below `min_samples_leaf`
is never returned by any of the three evaluators (each rejected candidate
contributes gain 0 or is skipped, whatever its raw gain), the selector only
returns masks of at least `min_samples_leaf` rows, and consequently every
non-root node of a generated tree has at least `min_samples_leaf` samples. -/
theorem min_samples_leaf_enforcement (imp : List String → List Bool → ℚ)
    (cfg : Config) (catFs : List String)
    (rankFs : List (String × List String)) (numFs : List String) (X : Table)
    (y classNames : List String) (pm : List Bool) :
    (∀ f fvs, ∀ m ∈ (categoricalSplit imp cfg.min_samples_leaf X y pm
      f fvs).2, cfg.min_samples_leaf ≤ maskSum m) ∧
    (∀ f, ∀ m ∈ (bestCategoricalSplit imp cfg.min_samples_leaf
      cfg.max_childs X y pm f).2.1, cfg.min_samples_leaf ≤ maskSum m) ∧
    (∀ f fv, ∀ m ∈ (rankSplit imp cfg.min_samples_leaf X y pm f fv).2,
      cfg.min_samples_leaf ≤ maskSum m) ∧
    (∀ f rv, ∀ m ∈ (bestRankSplit imp cfg.min_samples_leaf rv X y pm f).2.1,
      cfg.min_samples_leaf ≤ maskSum m) ∧
    (∀ f, ∀ m ∈ (numericalSplit imp cfg.min_samples_leaf X y pm f).2.1,
      cfg.min_samples_leaf ≤ maskSum m) ∧
    (∀ avail, ∀ m ∈ (split imp cfg catFs rankFs numFs X y pm avail).masks,
      cfg.min_samples_leaf ≤ maskSum m) ∧
    (∀ fuel fv depth avail sc,
      ∀ n ∈ (generateNode imp cfg catFs rankFs numFs X y classNames fuel pm
        fv depth avail sc).subnodes, cfg.min_samples_leaf ≤ n.samples) :=
  ⟨fun f fvs => categoricalSplit_msl imp cfg.min_samples_leaf X y pm f fvs,
   fun f => bestCategoricalSplit_msl imp cfg.min_samples_leaf cfg.max_childs
     X y pm f,
   fun f fv => rankSplit_msl imp cfg.min_samples_leaf X y pm f fv,
   fun f rv => bestRankSplit_msl imp cfg.min_samples_leaf rv X y pm f,
   fun f => numericalSplit_msl imp cfg.min_samples_leaf X y pm f,
   fun avail => split_msl imp cfg catFs rankFs numFs X y pm avail,
   fun fuel fv depth avail sc =>
     generateNode_msl imp cfg catFs rankFs numFs X y classNames fuel pm fv
       depth avail sc⟩

theorem categorical_partition_head {α : Type*} :
    ∀ (l : List α), l ≠ [] → (categorical_partition l).head? = some [l] := by
  intro l
  induction l with
  | nil => intro h; exact absurd rfl h
  | cons x rest ih =>
      intro _
      match rest, ih with
      | [], _ => rfl
      | r :: rs, ih =>
        have hh := ih (List.cons_ne_nil r rs)
        obtain ⟨t, ht⟩ : ∃ t, categorical_partition (r :: rs) =
            [r :: rs] :: t := by
          cases hcp : categorical_partition (r :: rs) with
          | nil => rw [hcp] at hh; simp at hh
          | cons a t =>
              rw [hcp] at hh
              simp only [List.head?_cons, Option.some_inj] at hh
              exact ⟨t, by rw [hh]⟩
        show (categorical_partition (x :: r :: rs)).head? =
          some [x :: r :: rs]
        rw [categorical_partition, ht]
        · simp [insertIntoBlock, List.range_succ]
        · exact fun h => List.noConfusion h

theorem categorical_partition_cons_cons {α : Type*} (x r : α) (rs : List α) :
    categorical_partition (x :: r :: rs) =
      (categorical_partition (r :: rs)).flatMap (fun smaller =>
        (List.range smaller.length).map (insertIntoBlock x smaller) ++
          [[x] :: smaller]) := by
  rw [categorical_partition]
  exact fun h => List.noConfusion h

theorem length_insertIntoBlock {α : Type*} (x : α) (smaller : List (List α))
    (n : ℕ) (hn : n < smaller.length) :
    (insertIntoBlock x smaller n).length = smaller.length := by
  simp only [insertIntoBlock, List.length_append, List.length_take,
    List.length_drop, List.length_cons, List.length_nil]
  omega

theorem flatten_insertIntoBlock {α : Type*} (x : α) (smaller : List (List α))
    (n : ℕ) (hn : n < smaller.length) :
    List.Perm (insertIntoBlock x smaller n).flatten
      (x :: smaller.flatten) := by
  have hdec : smaller = smaller.take n ++ smaller[n] :: smaller.drop (n + 1) := by
    conv_lhs => rw [← List.take_append_drop n smaller]
    rw [List.drop_eq_getElem_cons hn]
  have hget : smaller.getD n [] = smaller[n] :=
    List.getD_eq_getElem smaller [] hn
  have h1 : (insertIntoBlock x smaller n).flatten =
      (smaller.take n).flatten ++ x :: (smaller[n] ++
        (smaller.drop (n + 1)).flatten) := by
    simp [insertIntoBlock, hget, List.flatten_append,
      List.getElem?_eq_getElem hn]
  have h2 : (smaller.take n).flatten ++ (smaller[n] ++
      (smaller.drop (n + 1)).flatten) = smaller.flatten := by
    rw [← List.flatten_cons, ← List.flatten_append, ← hdec]
  rw [h1, ← h2]
  exact List.perm_middle

theorem mem_insertIntoBlock {α : Type*} {x : α} {smaller : List (List α)}
    {n : ℕ} {b : List α} (hb : b ∈ insertIntoBlock x smaller n) :
    b ∈ smaller ∨ ∃ b0, b = x :: b0 := by
  simp only [insertIntoBlock, List.mem_append, List.mem_singleton] at hb
  rcases hb with (hb | hb) | hb
  · exact Or.inl (List.take_subset n smaller hb)
  · exact Or.inr ⟨_, hb⟩
  · exact Or.inl (List.drop_subset (n + 1) smaller hb)

/-- Every element yielded by `categorical_partition` is a partition of the
input: blocks are nonempty and their concatenation is a permutation of the
input list. -/
theorem categorical_partition_sound {α : Type*} :
    ∀ (l : List α), ∀ p ∈ categorical_partition l,
      (∀ b ∈ p, b ≠ []) ∧ List.Perm p.flatten l := by
  intro l
  induction l with
  | nil => simp [categorical_partition]
  | cons x rest ih =>
      match rest, ih with
      | [], _ =>
          intro p hp
          simp only [categorical_partition, List.mem_singleton] at hp
          subst hp
          refine ⟨?_, by simp⟩
          intro b hb
          simp only [List.mem_singleton] at hb
          subst hb
          exact List.cons_ne_nil x []
      | r :: rs, ih =>
          intro p hp
          rw [categorical_partition_cons_cons] at hp
          obtain ⟨smaller, hsm, hp2⟩ := List.mem_flatMap.mp hp
          obtain ⟨hne, hperm⟩ := ih smaller hsm
          rcases List.mem_append.mp hp2 with hp3 | hp3
          · obtain ⟨n, hn, rfl⟩ := List.mem_map.mp hp3
            rw [List.mem_range] at hn
            constructor
            · intro b hb
              rcases mem_insertIntoBlock hb with hb | ⟨b0, rfl⟩
              · exact hne b hb
              · exact List.cons_ne_nil x b0
            · exact (flatten_insertIntoBlock x smaller n hn).trans
                (List.Perm.cons x hperm)
          · simp only [List.mem_singleton] at hp3
            subst hp3
            constructor
            · intro b hb
              rcases List.mem_cons.mp hb with rfl | hb
              · exact List.cons_ne_nil x []
              · exact hne b hb
            · simpa using List.Perm.cons x hperm

/-- The one-block partition is yielded exactly once by
`categorical_partition`. -/
theorem categorical_partition_single_count {α : Type*} :
    ∀ (l : List α), l ≠ [] →
      (categorical_partition l).countP (fun p => p.length == 1) = 1 := by
  intro l
  induction l with
  | nil => intro h; exact absurd rfl h
  | cons x rest ih =>
      match rest, ih with
      | [], _ =>
          intro _
          simp [categorical_partition, List.countP_cons]
      | r :: rs, ih =>
          intro _
          rw [categorical_partition_cons_cons, List.flatMap_def,
            List.countP_flatten, List.map_map]
          have hsm : ∀ smaller ∈ categorical_partition (r :: rs),
              ((List.countP (fun p => p.length == 1)) ∘ fun smaller =>
                (List.range smaller.length).map (insertIntoBlock x smaller) ++
                  [[x] :: smaller]) smaller =
              (fun p => if p.length == 1 then 1 else 0) smaller := by
            intro smaller hsmaller
            obtain ⟨hne, hperm⟩ :=
              categorical_partition_sound (r :: rs) smaller hsmaller
            have hlen1 : 1 ≤ smaller.length := by
              rcases smaller with - | ⟨b, sm⟩
              · have := hperm.length_eq
                simp at this
              · simp
            simp only [Function.comp, List.countP_append, List.countP_map]
            have hins : List.countP
                ((fun p => p.length == 1) ∘ insertIntoBlock x smaller)
                (List.range smaller.length) =
                List.countP (fun _ => smaller.length == 1)
                  (List.range smaller.length) := by
              apply List.countP_congr
              intro n hn
              rw [List.mem_range] at hn
              simp [Function.comp, length_insertIntoBlock x smaller n hn]
            rw [hins]
            by_cases hone : smaller.length = 1
            · simp [hone, List.countP_cons]
            · have h2 : 2 ≤ smaller.length := by omega
              have hfalse : List.countP (fun _ => smaller.length == 1)
                  (List.range smaller.length) = 0 := by
                have : (fun (_ : ℕ) => smaller.length == 1) =
                    (fun (_ : ℕ) => false) := by
                  funext m
                  simp [hone]
                rw [this, List.countP_false]
                rfl
              have c1 : (([x] :: smaller).length == 1) = false := by
                simp only [List.length_cons, beq_eq_false_iff_ne, ne_eq]
                omega
              have c2 : (smaller.length == 1) = false := by
                simp only [beq_eq_false_iff_ne, ne_eq]
                exact hone
              rw [hfalse]
              simp [List.countP_cons, c1, c2]
              exact fun hnil => by simp [hnil] at hlen1
          rw [List.map_congr_left hsm, sum_map_ite]
          exact ih (List.cons_ne_nil r rs)

/-- Every candidate left after dropping the head has at least two blocks. -/
theorem categorical_partition_tail_blocks {α : Type*} (l : List α)
    (h : l ≠ []) :
    ∀ p ∈ (categorical_partition l).tail, 2 ≤ p.length := by
  have hhead := categorical_partition_head l h
  obtain ⟨t, ht⟩ : ∃ t, categorical_partition l = [l] :: t := by
    cases hcp : categorical_partition l with
    | nil => rw [hcp] at hhead; simp at hhead
    | cons a t =>
        rw [hcp] at hhead
        simp only [List.head?_cons, Option.some_inj] at hhead
        exact ⟨t, by rw [hhead]⟩
  have hcount := categorical_partition_single_count l h
  rw [ht] at hcount
  have hheadcount : (([l] : List (List α)).length == 1) = true := by simp
  rw [List.countP_cons, hheadcount] at hcount
  simp only [if_true] at hcount
  have htail : t.countP (fun p => p.length == 1) = 0 := by omega
  intro p hp
  rw [ht] at hp
  simp only [List.tail_cons] at hp
  have hnot1 : ¬(p.length == 1) = true :=
    List.countP_eq_zero.mp htail p hp
  have hmem : p ∈ categorical_partition l := by
    rw [ht]
    exact List.mem_cons_of_mem _ hp
  obtain ⟨-, hperm⟩ := categorical_partition_sound l p hmem
  have hne : p ≠ [] := by
    intro hnil
    subst hnil
    exact h (List.Perm.eq_nil (List.Perm.symm hperm))
  have h1 : 1 ≤ p.length := by
    rcases p with - | ⟨b, p⟩
    · exact absurd rfl hne
    · simp
  simp only [beq_iff_eq] at hnot1
  omega

/-- A block of a partition viewed as a multiset, forgetting value order. -/
def listMS {α : Type*} (b : List α) : Multiset α := ↑b

/-- Multiset of block multisets of a partition: the canonical representation
that forgets block order and within-block order. -/
def blockMS {α : Type*} (p : List (List α)) : Multiset (Multiset α) :=
  ↑(p.map listMS)

theorem blockMS_nil {α : Type*} : blockMS ([] : List (List α)) = 0 := rfl

theorem blockMS_cons {α : Type*} (b : List α) (q : List (List α)) :
    blockMS (b :: q) = listMS b ::ₘ blockMS q := by
  simp [blockMS]

theorem blockMS_append {α : Type*} (q1 q2 : List (List α)) :
    blockMS (q1 ++ q2) = blockMS q1 + blockMS q2 := by
  simp [blockMS]

theorem insertIntoBlock_mem_cp {α : Type*} (x : α) {rest : List α}
    (hr : rest ≠ []) {q : List (List α)}
    (hq : q ∈ categorical_partition rest) {n : ℕ} (hn : n < q.length) :
    insertIntoBlock x q n ∈ categorical_partition (x :: rest) := by
  match rest, hr with
  | r :: rs, _ =>
      rw [categorical_partition_cons_cons]
      exact List.mem_flatMap.mpr ⟨q, hq, List.mem_append_left _
        (List.mem_map.mpr ⟨n, List.mem_range.mpr hn, rfl⟩)⟩

theorem ownBlock_mem_cp {α : Type*} (x : α) {rest : List α} (hr : rest ≠ [])
    {q : List (List α)} (hq : q ∈ categorical_partition rest) :
    ([x] :: q) ∈ categorical_partition (x :: rest) := by
  match rest, hr with
  | r :: rs, _ =>
      rw [categorical_partition_cons_cons]
      exact List.mem_flatMap.mpr ⟨q, hq,
        List.mem_append_right _ (List.mem_singleton.mpr rfl)⟩

/-- A list whose blocks are all nonempty and whose concatenation is empty is
itself empty. -/
theorem eq_nil_of_flatten_nil {α : Type*} {q : List (List α)}
    (hne : ∀ b ∈ q, b ≠ []) (hfl : q.flatten = []) : q = [] := by
  rcases q with - | ⟨b, q⟩
  · rfl
  · exfalso
    simp only [List.flatten_cons, List.append_eq_nil] at hfl
    exact hne b (List.mem_cons_self b q) hfl.1

/-- Completeness of `categorical_partition`: every partition of a nonempty
input (nonempty blocks concatenating to a permutation of the input) is
yielded, up to block order and within-block order. -/
theorem categorical_partition_complete {α : Type*} [DecidableEq α] :
    ∀ (l : List α), l ≠ [] → ∀ (q : List (List α)), (∀ b ∈ q, b ≠ []) →
      List.Perm q.flatten l →
      ∃ p ∈ categorical_partition l, blockMS p = blockMS q := by
  intro l
  induction l with
  | nil => intro h; exact absurd rfl h
  | cons x rest ih =>
      match rest, ih with
      | [], _ =>
          intro _ q hne hperm
          have hfl : q.flatten = [x] := List.perm_singleton.mp hperm
          rcases q with - | ⟨b, q'⟩
          · simp at hfl
          · simp only [List.flatten_cons] at hfl
            have hb : b ≠ [] := hne b (List.mem_cons_self b q')
            have hlen : b.length + q'.flatten.length = 1 := by
              have := congrArg List.length hfl
              simpa using this
            have hb1 : 1 ≤ b.length := List.length_pos.mpr hb
            have hq'fl : q'.flatten = [] := by
              have h0 : q'.flatten.length = 0 := by omega
              exact List.length_eq_zero.mp h0
            have hbx : b = [x] := by
              rw [hq'fl, List.append_nil] at hfl
              exact hfl
            have hq' : q' = [] := eq_nil_of_flatten_nil
              (fun c hc => hne c (List.mem_cons_of_mem _ hc)) hq'fl
            subst hbx
            subst hq'
            exact ⟨[[x]], by simp [categorical_partition], rfl⟩
      | r :: rs, ih =>
          intro _ q hne hperm
          have hx : x ∈ q.flatten := (List.Perm.mem_iff hperm).mpr
            (List.mem_cons_self x (r :: rs))
          obtain ⟨b, hb, hxb⟩ := List.mem_flatten.mp hx
          obtain ⟨q1, q2, rfl⟩ := List.append_of_mem hb
          have hne1 : ∀ c ∈ q1, c ≠ [] := fun c hc =>
            hne c (List.mem_append_left _ hc)
          have hne2 : ∀ c ∈ q2, c ≠ [] := fun c hc =>
            hne c (List.mem_append_right _ (List.mem_cons_of_mem _ hc))
          have hbperm : List.Perm b (x :: b.erase x) :=
            List.perm_cons_erase hxb
          have hqMS : blockMS (q1 ++ b :: q2) =
              blockMS q1 + listMS b ::ₘ blockMS q2 := by
            rw [blockMS_append, blockMS_cons]
          have hbcoe : listMS b = x ::ₘ listMS (b.erase x) := by
            show (↑b : Multiset α) = x ::ₘ ↑(b.erase x)
            have h0 := (Multiset.coe_eq_coe).mpr hbperm
            simpa using h0
          by_cases hbe : b.erase x = []
          · have hb1 : b = [x] := by
              have hlen := List.length_erase_of_mem hxb
              rw [hbe] at hlen
              simp only [List.length_nil] at hlen
              rcases b with - | ⟨a, b'⟩
              · simp at hxb
              · have : b'.length = 0 := by
                  simp only [List.length_cons] at hlen
                  omega
                have hb'nil : b' = [] := List.length_eq_zero.mp this
                subst hb'nil
                simp only [List.mem_singleton] at hxb
                rw [hxb]
            subst hb1
            have hflq : List.Perm (q1 ++ q2).flatten (r :: rs) := by
              have h1 : List.Perm (q1 ++ [x] :: q2).flatten
                  (x :: (q1 ++ q2).flatten) := by
                simp only [List.flatten_append, List.flatten_cons]
                have : List.Perm (q1.flatten ++ x :: q2.flatten)
                    (x :: (q1.flatten ++ q2.flatten)) := List.perm_middle
                simpa [List.flatten_append] using this
              exact List.Perm.cons_inv ((List.Perm.symm h1).trans hperm)
            obtain ⟨p', hp'mem, hp'MS⟩ := ih (List.cons_ne_nil r rs)
              (q1 ++ q2) (by
                intro c hc
                rcases List.mem_append.mp hc with hc | hc
                · exact hne1 c hc
                · exact hne2 c hc) hflq
            refine ⟨[x] :: p', ownBlock_mem_cp x (List.cons_ne_nil r rs)
              hp'mem, ?_⟩
            rw [blockMS_cons, hp'MS, blockMS_append, hqMS,
              Multiset.add_cons]
          · have h1 : List.Perm ((q1 ++ b :: q2).flatten)
                (x :: (q1 ++ b.erase x :: q2).flatten) := by
              simp only [List.flatten_append, List.flatten_cons]
              refine List.Perm.trans (List.Perm.append_left q1.flatten
                (List.Perm.append_right q2.flatten hbperm)) ?_
              simp only [List.cons_append]
              exact List.perm_middle
            have hflq : List.Perm ((q1 ++ b.erase x :: q2).flatten)
                (r :: rs) :=
              List.Perm.cons_inv ((List.Perm.symm h1).trans hperm)
            obtain ⟨p', hp'mem, hp'MS⟩ := ih (List.cons_ne_nil r rs)
              (q1 ++ b.erase x :: q2) (by
                intro c hc
                rcases List.mem_append.mp hc with hc | hc
                · exact hne1 c hc
                · rcases List.mem_cons.mp hc with rfl | hc
                  · exact hbe
                  · exact hne2 c hc) hflq
            have hbeMS : listMS (b.erase x) ∈ blockMS p' := by
              rw [hp'MS, blockMS_append, blockMS_cons]
              exact Multiset.mem_add.mpr (Or.inr (Multiset.mem_cons_self _ _))
            obtain ⟨bp, hbpmem, hbpcoe⟩ :
                ∃ bp ∈ p', listMS bp = listMS (b.erase x) := by
              rw [blockMS, Multiset.mem_coe] at hbeMS
              obtain ⟨bp, h1b, h2b⟩ := List.exists_of_mem_map hbeMS
              exact ⟨bp, h1b, h2b⟩
            obtain ⟨n, hn, hbp⟩ := List.getElem_of_mem hbpmem
            have hdec : p' = p'.take n ++ p'[n] :: p'.drop (n + 1) := by
              conv_lhs => rw [← List.take_append_drop n p']
              rw [List.drop_eq_getElem_cons hn]
            have hp'dec : blockMS p' = blockMS (p'.take n) +
                listMS (p'[n]) ::ₘ blockMS (p'.drop (n + 1)) := by
              conv_lhs => rw [hdec]
              rw [blockMS_append, blockMS_cons]
            have hcancel : blockMS (p'.take n) + blockMS (p'.drop (n + 1)) =
                blockMS q1 + blockMS q2 := by
              have heq := hp'dec.symm.trans hp'MS
              rw [blockMS_append, blockMS_cons, hbp, hbpcoe] at heq
              rw [Multiset.add_cons, Multiset.add_cons] at heq
              exact (Multiset.cons_inj_right _).mp heq
            refine ⟨insertIntoBlock x p' n,
              insertIntoBlock_mem_cp x (List.cons_ne_nil r rs) hp'mem hn, ?_⟩
            have hgetD : p'.getD n [] = p'[n] := List.getD_eq_getElem p' [] hn
            have hIMS : blockMS (insertIntoBlock x p' n) =
                blockMS (p'.take n) + listMS (x :: p'[n]) ::ₘ
                  blockMS (p'.drop (n + 1)) := by
              rw [insertIntoBlock, hgetD, blockMS_append, blockMS_append,
                blockMS_cons, blockMS_nil, add_assoc, Multiset.cons_add,
                zero_add]
            have hxb2 : listMS (x :: p'[n]) = listMS b := by
              have hc : listMS (x :: p'[n]) = x ::ₘ listMS (p'[n]) := by
                show (↑(x :: p'[n]) : Multiset α) = x ::ₘ ↑(p'[n])
                simp
              rw [hc, hbp, hbpcoe, ← hbcoe]
            rw [hIMS, hxb2, hqMS, Multiset.add_cons, Multiset.add_cons,
              hcancel]

theorem card_blockMS {α : Type*} (p : List (List α)) :
    Multiset.card (blockMS p) = p.length := by
  simp [blockMS]

/-- Membership in the candidate list of `__best_categorical_split` implies
membership in the tail of the generator output plus the `max_childs` bound. -/
theorem mem_categoricalCandidates {mc : Option ℕ} {vals : List String}
    {p : List (List String)} (hp : p ∈ categoricalCandidates mc vals) :
    p ∈ ((categorical_partition vals).drop 1) ∧
      (∀ mcv, mc = some mcv → p.length ≤ mcv) := by
  unfold categoricalCandidates at hp
  cases mc with
  | none =>
      simp only at hp
      exact ⟨(List.mem_insertionSort (fun a b => a.length ≤ b.length)).mp hp,
        fun mcv h => Option.noConfusion h⟩
  | some mcv =>
      simp only [List.mem_filter, decide_eq_true_eq] at hp
      exact ⟨(List.mem_insertionSort
          (fun a b => a.length ≤ b.length)).mp hp.1,
        fun mcv2 h => by
          cases h
          exact hp.2⟩

/-- Claim C4: the categorical evaluator returns no split (gain 0) when fewer
than two distinct non-missing values remain; otherwise the dropped first
generator output is exactly the trivial one-block partition, every considered
candidate is a set-partition of the distinct values into at least two
nonempty blocks within the `max_childs` bound, every such partition occurs
among the candidates (up to block order and within-block order), and for
three distinct values there are exactly Bell(3) - 1 = 4 candidates, of which
the one with three blocks is excluded under `max_childs = 2`. -/
theorem categorical_split_candidates (imp : List String → List Bool → ℚ)
    (msl : ℕ) (mc : Option ℕ) (X : Table) (y : List String)
    (pm : List Bool) (f : String) :
    ((availableValues pm (X.col f)).length ≤ 1 →
      bestCategoricalSplit imp msl mc X y pm f = (0, [], [])) ∧
    (availableValues pm (X.col f) ≠ [] →
      (categorical_partition (availableValues pm (X.col f))).head? =
        some [availableValues pm (X.col f)]) ∧
    (∀ p ∈ categoricalCandidates mc (availableValues pm (X.col f)),
      (∀ b ∈ p, b ≠ []) ∧
      List.Perm p.flatten (availableValues pm (X.col f)) ∧
      2 ≤ p.length ∧ (∀ mcv, mc = some mcv → p.length ≤ mcv)) ∧
    (∀ q : List (List String), (∀ b ∈ q, b ≠ []) →
      List.Perm q.flatten (availableValues pm (X.col f)) →
      2 ≤ q.length → (∀ mcv, mc = some mcv → q.length ≤ mcv) →
      ∃ p ∈ categoricalCandidates mc (availableValues pm (X.col f)),
        blockMS p = blockMS q) ∧
    ((categoricalCandidates none ["A", "B", "C"]).length = 4 ∧
      (categoricalCandidates (some 2) ["A", "B", "C"]).length = 3) := by
  refine ⟨?_, ?_, ?_, ?_, by refine ⟨by decide, by decide⟩⟩
  · intro hle
    unfold bestCategoricalSplit
    rw [if_pos hle]
  · exact categorical_partition_head (availableValues pm (X.col f))
  · intro p hp
    obtain ⟨htail, hmc⟩ := mem_categoricalCandidates hp
    have hvne : availableValues pm (X.col f) ≠ [] := by
      intro hnil
      rw [hnil] at htail
      simp [categorical_partition] at htail
    have hmemall : p ∈ categorical_partition (availableValues pm (X.col f)) := by
      have := List.drop_subset 1 (categorical_partition
        (availableValues pm (X.col f)))
      exact this htail
    obtain ⟨hne, hperm⟩ := categorical_partition_sound _ p hmemall
    refine ⟨hne, hperm, ?_, hmc⟩
    have := categorical_partition_tail_blocks _ hvne p
    rw [← List.drop_one] at this
    exact this htail
  · intro q hne hperm h2 hmc
    have hvne : availableValues pm (X.col f) ≠ [] := by
      intro hnil
      rw [hnil] at hperm
      have := List.Perm.eq_nil hperm
      rcases q with - | ⟨b, q'⟩
      · simp at h2
      · simp only [List.flatten_cons, List.append_eq_nil] at this
        exact hne b (List.mem_cons_self b q') this.1
    obtain ⟨p, hpmem, hpMS⟩ := categorical_partition_complete _ hvne q hne
      hperm
    have hplen : p.length = q.length := by
      have := congrArg Multiset.card hpMS
      simpa [card_blockMS] using this
    obtain ⟨t, ht⟩ : ∃ t, categorical_partition
        (availableValues pm (X.col f)) =
        [availableValues pm (X.col f)] :: t := by
      have hhead := categorical_partition_head _ hvne
      cases hcp : categorical_partition (availableValues pm (X.col f)) with
      | nil => rw [hcp] at hhead; simp at hhead
      | cons a t =>
          rw [hcp] at hhead
          simp only [List.head?_cons, Option.some_inj] at hhead
          exact ⟨t, by rw [hhead]⟩
    have hpt : p ∈ t := by
      rw [ht] at hpmem
      rcases List.mem_cons.mp hpmem with heq | hmem
      · exfalso
        rw [heq] at hplen
        simp only [List.length_singleton] at hplen
        omega
      · exact hmem
    have hsorted : p ∈ List.insertionSort (fun a b => a.length ≤ b.length)
        ((categorical_partition (availableValues pm (X.col f))).drop 1) := by
      apply (List.mem_insertionSort
        (fun (a b : List (List String)) => a.length ≤ b.length)).mpr
      rw [ht]
      simpa using hpt
    refine ⟨p, ?_, hpMS⟩
    unfold categoricalCandidates
    cases mc with
    | none => exact hsorted
    | some mcv =>
        simp only [List.mem_filter, decide_eq_true_eq]
        exact ⟨hsorted, by rw [hplen]; exact hmc mcv rfl⟩

/-- Claim C4, counterexample to the stated candidate count: for the three
distinct values A, B, C the evaluator considers 4 candidates (the non-trivial
set-partitions of a 3-element set number Bell(3) - 1 = 4), not the 5 stated
by the claim. -/
theorem categorical_candidates_counterexample :
    (categoricalCandidates none ["A", "B", "C"]).length = 4 ∧
    ¬((categoricalCandidates none ["A", "B", "C"]).length = 5) := by decide

/-- Witness for `categorical_split_candidates`: a single-valued categorical
column yields no split with gain 0. -/
theorem categorical_split_candidates_witness :
    bestCategoricalSplit (giniOf ["a"]) 1 none
      ⟨["F"], [fun _ => Cell.str "x"]⟩ ["a"] [true] "F" = (0, [], []) :=
  (categorical_split_candidates (giniOf ["a"]) 1 none
    ⟨["F"], [fun _ => Cell.str "x"]⟩ ["a"] [true] "F").1 (by decide)

theorem list_sum_map_fin {β : Type*} [AddCommMonoid β] (l : List ℕ)
    (f : ℕ → β) : (l.map f).sum = ∑ i : Fin l.length, f (l.get i) := by
  conv_lhs => rw [← List.ofFn_get l]
  rw [List.map_ofFn, List.sum_ofFn]
  rfl

/-- Termwise Gibbs inequality: for nonnegative `x` and positive integer `k`,
`negMulLog x ≤ x log k + (1/k - x)` with equality exactly at `x = 1/k`. -/
theorem gibbs_term (x : ℝ) (hx : 0 ≤ x) (k : ℕ) (hk : 0 < k) :
    Real.negMulLog x ≤ x * Real.log k + (1 / k - x) ∧
    (Real.negMulLog x = x * Real.log k + (1 / k - x) ↔ x = 1 / k) := by
  have hkR : (0:ℝ) < k := by exact_mod_cast hk
  rcases eq_or_lt_of_le hx with heq0 | hx0
  · subst heq0
    have h1k : (0:ℝ) < 1 / k := by positivity
    constructor
    · simp [Real.negMulLog_zero]
    · simp [Real.negMulLog_zero]
  · have hkx : (0:ℝ) < (k : ℝ) * x := by positivity
    have ht : (0:ℝ) < 1 / ((k : ℝ) * x) := by positivity
    have hlog : Real.log (1 / ((k : ℝ) * x)) =
        -(Real.log k + Real.log x) := by
      rw [one_div, Real.log_inv,
        Real.log_mul (ne_of_gt hkR) (ne_of_gt hx0)]
    have hx1 : x * (1 / ((k : ℝ) * x)) = 1 / k := by
      field_simp
      ring
    constructor
    · have hle := Real.log_le_sub_one_of_pos ht
      rw [hlog] at hle
      have hmul := mul_le_mul_of_nonneg_left hle (le_of_lt hx0)
      rw [Real.negMulLog]
      nlinarith [hmul, hx1]
    · constructor
      · intro heq
        by_contra hne
        have htne : 1 / ((k : ℝ) * x) ≠ 1 := by
          intro h1
          apply hne
          rw [div_eq_one_iff_eq (ne_of_gt hkx)] at h1
          field_simp
          linarith [h1.symm]
        have hlt := Real.log_lt_sub_one_of_pos ht htne
        rw [hlog] at hlt
        have hmul := mul_lt_mul_of_pos_left hlt hx0
        rw [Real.negMulLog] at heq
        nlinarith [hmul, hx1]
      · intro hxeq
        subst hxeq
        rw [Real.negMulLog, one_div, Real.log_inv]
        ring

theorem counts_sum_fin (counts : List ℕ) :
    counts.sum = ∑ i : Fin counts.length, counts.get i := by
  have h := list_sum_map_fin counts (fun m => m)
  simpa using h

theorem counts_get_le_sum (counts : List ℕ) (i : Fin counts.length) :
    counts.get i ≤ counts.sum := by
  rw [counts_sum_fin]
  exact Finset.single_le_sum
    (fun (j : Fin counts.length) (_ : j ∈ Finset.univ) =>
      Nat.zero_le (counts.get j)) (Finset.mem_univ i)

theorem counts_others_zero (counts : List ℕ) (i0 : Fin counts.length)
    (h : counts.get i0 = counts.sum) :
    ∀ j : Fin counts.length, j ≠ i0 → counts.get j = 0 := by
  intro j hj
  have hsum := counts_sum_fin counts
  have herase : counts.get i0 + ∑ m ∈ Finset.univ.erase i0, counts.get m =
      ∑ m : Fin counts.length, counts.get m :=
    Finset.add_sum_erase Finset.univ
      (fun j : Fin counts.length => counts.get j) (Finset.mem_univ i0)
  have hzero : ∑ m ∈ Finset.univ.erase i0, counts.get m = 0 := by omega
  have := (Finset.sum_eq_zero_iff_of_nonneg
    (fun m _ => Nat.zero_le (counts.get m))).mp hzero
  exact this j (Finset.mem_erase.mpr ⟨hj, Finset.mem_univ j⟩)

theorem entropyCounts_eq_sum (counts : List ℕ) :
    entropyCounts counts = (∑ i : Fin counts.length,
      Real.negMulLog ((counts.get i : ℝ) / ((counts.sum : ℕ) : ℝ))) /
        Real.log 2 := by
  have hlog2 : Real.log 2 ≠ 0 :=
    ne_of_gt (Real.log_pos (by norm_num))
  rw [entropyCounts]
  rw [list_sum_map_fin counts (fun m => if m = 0 then 0 else
    -(((m : ℝ) / ((counts.sum : ℕ) : ℝ)) *
      Real.logb 2 ((m : ℝ) / ((counts.sum : ℕ) : ℝ))))]
  rw [Finset.sum_div]
  apply Finset.sum_congr rfl
  intro i _
  by_cases h : counts.get i = 0
  · rw [if_pos h, h]
    simp [Real.negMulLog_zero]
  · rw [if_neg h, Real.logb, Real.negMulLog]
    field_simp

theorem giniCounts_eq_sum (counts : List ℕ) :
    giniCounts counts = ∑ i : Fin counts.length,
      ((counts.get i : ℚ) / ((counts.sum : ℕ) : ℚ)) *
        (1 - (counts.get i : ℚ) / ((counts.sum : ℕ) : ℚ)) := by
  rw [giniCounts]
  exact list_sum_map_fin counts _

theorem negMulLog_eq_zero_of_nonneg {x : ℝ} (hx : 0 ≤ x)
    (h : Real.negMulLog x = 0) : x = 0 ∨ x = 1 := by
  rw [Real.negMulLog] at h
  rcases mul_eq_zero.mp h with h | h
  · exact Or.inl (neg_eq_zero.mp h)
  · rcases Real.log_eq_zero.mp h with h | h | h
    · exact Or.inl h
    · exact Or.inr h
    · exfalso
      rw [h] at hx
      norm_num at hx

/-- Claim C9: entropy and Gini satisfy their defining formulas over the class
counts (zero-count classes contributing 0), both are nonnegative, both vanish
exactly when a single class carries the whole mass, and entropy is at most
`log2 numClasses` with equality exactly for the uniform distribution. -/
theorem impurity_function_properties (counts : List ℕ)
    (hN : 0 < counts.sum) :
    (entropyCounts counts = (∑ i : Fin counts.length,
      Real.negMulLog ((counts.get i : ℝ) / ((counts.sum : ℕ) : ℝ))) /
        Real.log 2) ∧
    (giniCounts counts = ∑ i : Fin counts.length,
      ((counts.get i : ℚ) / ((counts.sum : ℕ) : ℚ)) *
        (1 - (counts.get i : ℚ) / ((counts.sum : ℕ) : ℚ))) ∧
    0 ≤ entropyCounts counts ∧
    0 ≤ giniCounts counts ∧
    (entropyCounts counts = 0 ↔
      ∃ i : Fin counts.length, counts.get i = counts.sum) ∧
    (giniCounts counts = 0 ↔
      ∃ i : Fin counts.length, counts.get i = counts.sum) ∧
    entropyCounts counts ≤ Real.logb 2 (counts.length : ℝ) ∧
    (entropyCounts counts = Real.logb 2 (counts.length : ℝ) ↔
      ∀ i : Fin counts.length,
        counts.get i * counts.length = counts.sum) := by
  have hk : 0 < counts.length := by
    rcases counts with - | ⟨c, rest⟩
    · simp at hN
    · simp
  have hNR : (0:ℝ) < ((counts.sum : ℕ) : ℝ) := by exact_mod_cast hN
  have hNQ : (0:ℚ) < ((counts.sum : ℕ) : ℚ) := by exact_mod_cast hN
  have hkR : (0:ℝ) < (counts.length : ℝ) := by exact_mod_cast hk
  have hlog2pos : 0 < Real.log 2 := Real.log_pos (by norm_num)
  have hlog2ne : Real.log 2 ≠ 0 := ne_of_gt hlog2pos
  have hp0 : ∀ i : Fin counts.length,
      0 ≤ (counts.get i : ℝ) / ((counts.sum : ℕ) : ℝ) := fun i =>
    div_nonneg (Nat.cast_nonneg _) (le_of_lt hNR)
  have hp1 : ∀ i : Fin counts.length,
      (counts.get i : ℝ) / ((counts.sum : ℕ) : ℝ) ≤ 1 := fun i =>
    (div_le_one hNR).mpr (by exact_mod_cast counts_get_le_sum counts i)
  have hq0 : ∀ i : Fin counts.length,
      0 ≤ (counts.get i : ℚ) / ((counts.sum : ℕ) : ℚ) := fun i =>
    div_nonneg (Nat.cast_nonneg _) (le_of_lt hNQ)
  have hq1 : ∀ i : Fin counts.length,
      (counts.get i : ℚ) / ((counts.sum : ℕ) : ℚ) ≤ 1 := fun i =>
    (div_le_one hNQ).mpr (by exact_mod_cast counts_get_le_sum counts i)
  have hsumR : ∑ i : Fin counts.length, (counts.get i : ℝ) =
      ((counts.sum : ℕ) : ℝ) := by
    rw [counts_sum_fin counts]
    exact (Nat.cast_sum _ _).symm
  have hpsum : ∑ i : Fin counts.length,
      (counts.get i : ℝ) / ((counts.sum : ℕ) : ℝ) = 1 := by
    rw [← Finset.sum_div, hsumR, div_self (ne_of_gt hNR)]
  have hterm : ∀ i ∈ (Finset.univ : Finset (Fin counts.length)),
      Real.negMulLog ((counts.get i : ℝ) / ((counts.sum : ℕ) : ℝ)) ≤
      ((counts.get i : ℝ) / ((counts.sum : ℕ) : ℝ)) *
        Real.log counts.length +
        (1 / (counts.length : ℝ) -
          (counts.get i : ℝ) / ((counts.sum : ℕ) : ℝ)) := fun i _ =>
    (gibbs_term _ (hp0 i) counts.length hk).1
  have hRHS : ∑ i : Fin counts.length,
      (((counts.get i : ℝ) / ((counts.sum : ℕ) : ℝ)) *
        Real.log counts.length +
        (1 / (counts.length : ℝ) -
          (counts.get i : ℝ) / ((counts.sum : ℕ) : ℝ))) =
      Real.log counts.length := by
    rw [Finset.sum_add_distrib, Finset.sum_sub_distrib, ← Finset.sum_mul,
      hpsum, one_mul, Finset.sum_const, Finset.card_univ, Fintype.card_fin,
      nsmul_eq_mul, mul_one_div, div_self (ne_of_gt hkR)]
    ring
  refine ⟨entropyCounts_eq_sum counts, giniCounts_eq_sum counts, ?_, ?_,
    ?_, ?_, ?_, ?_⟩
  · rw [entropyCounts_eq_sum counts]
    exact div_nonneg (Finset.sum_nonneg (fun i _ =>
      Real.negMulLog_nonneg (hp0 i) (hp1 i))) (le_of_lt hlog2pos)
  · rw [giniCounts_eq_sum counts]
    exact Finset.sum_nonneg (fun i _ =>
      mul_nonneg (hq0 i) (sub_nonneg.mpr (hq1 i)))
  · rw [entropyCounts_eq_sum counts]
    constructor
    · intro h0
      have hS : ∑ i : Fin counts.length,
          Real.negMulLog ((counts.get i : ℝ) / ((counts.sum : ℕ) : ℝ)) = 0 :=
        (div_eq_zero_iff.mp h0).resolve_right hlog2ne
      have hterms := (Finset.sum_eq_zero_iff_of_nonneg (fun i _ =>
        Real.negMulLog_nonneg (hp0 i) (hp1 i))).mp hS
      by_contra hcon
      push_neg at hcon
      have hall0 : ∀ i : Fin counts.length, counts.get i = 0 := by
        intro i
        rcases negMulLog_eq_zero_of_nonneg (hp0 i)
          (hterms i (Finset.mem_univ i)) with h | h
        · have : (counts.get i : ℝ) = 0 :=
            (div_eq_zero_iff.mp h).resolve_right (ne_of_gt hNR)
          exact_mod_cast this
        · exfalso
          apply hcon i
          have : (counts.get i : ℝ) = ((counts.sum : ℕ) : ℝ) := by
            rw [div_eq_one_iff_eq (ne_of_gt hNR)] at h
            exact h
          exact_mod_cast this
      have : counts.sum = 0 := by
        rw [counts_sum_fin counts]
        exact Finset.sum_eq_zero (fun i _ => hall0 i)
      omega
    · rintro ⟨i0, hi0⟩
      have hS : ∑ i : Fin counts.length,
          Real.negMulLog ((counts.get i : ℝ) / ((counts.sum : ℕ) : ℝ)) = 0 := by
        apply Finset.sum_eq_zero
        intro j _
        by_cases hj : j = i0
        · subst hj
          rw [hi0, div_self (ne_of_gt hNR), Real.negMulLog_one]
        · rw [counts_others_zero counts i0 hi0 j hj]
          simp [Real.negMulLog_zero]
      rw [hS, zero_div]
  · rw [giniCounts_eq_sum counts]
    constructor
    · intro h0
      have hterms := (Finset.sum_eq_zero_iff_of_nonneg (fun i _ =>
        mul_nonneg (hq0 i) (sub_nonneg.mpr (hq1 i)))).mp h0
      by_contra hcon
      push_neg at hcon
      have hall0 : ∀ i : Fin counts.length, counts.get i = 0 := by
        intro i
        have hti := hterms i (Finset.mem_univ i)
        rcases mul_eq_zero.mp hti with h | h
        · have : (counts.get i : ℚ) = 0 :=
            (div_eq_zero_iff.mp h).resolve_right (ne_of_gt hNQ)
          exact_mod_cast this
        · exfalso
          apply hcon i
          have h1 : (counts.get i : ℚ) / ((counts.sum : ℕ) : ℚ) = 1 := by
            linarith [sub_eq_zero.mp h]
          have : (counts.get i : ℚ) = ((counts.sum : ℕ) : ℚ) := by
            rw [div_eq_one_iff_eq (ne_of_gt hNQ)] at h1
            exact h1
          exact_mod_cast this
      have : counts.sum = 0 := by
        rw [counts_sum_fin counts]
        exact Finset.sum_eq_zero (fun i _ => hall0 i)
      omega
    · rintro ⟨i0, hi0⟩
      apply Finset.sum_eq_zero
      intro j _
      by_cases hj : j = i0
      · subst hj
        rw [hi0, div_self (ne_of_gt hNQ)]
        ring
      · rw [counts_others_zero counts i0 hi0 j hj]
        simp
  · rw [entropyCounts_eq_sum counts]
    have hle := Finset.sum_le_sum hterm
    rw [hRHS] at hle
    rw [Real.logb]
    exact div_le_div_of_nonneg_right hle (le_of_lt hlog2pos)
  · rw [entropyCounts_eq_sum counts, Real.logb]
    constructor
    · intro heq
      have hS : ∑ i : Fin counts.length,
          Real.negMulLog ((counts.get i : ℝ) / ((counts.sum : ℕ) : ℝ)) =
          Real.log counts.length := by
        have hmul := congrArg (fun z => z * Real.log 2) heq
        simpa [div_mul_cancel₀ _ hlog2ne] using hmul
      rw [← hRHS] at hS
      have hall := (Finset.sum_eq_sum_iff_of_le hterm).mp hS
      intro i
      have hpi := ((gibbs_term _ (hp0 i) counts.length hk).2).mp
        (hall i (Finset.mem_univ i))
      rw [div_eq_div_iff (ne_of_gt hNR) (ne_of_gt hkR)] at hpi
      have hcast : (counts.get i : ℝ) * (counts.length : ℝ) =
          ((counts.sum : ℕ) : ℝ) := by
        rw [hpi]
        ring
      exact_mod_cast hcast
    · intro huni
      have hall : ∀ i ∈ (Finset.univ : Finset (Fin counts.length)),
          Real.negMulLog ((counts.get i : ℝ) / ((counts.sum : ℕ) : ℝ)) =
          ((counts.get i : ℝ) / ((counts.sum : ℕ) : ℝ)) *
            Real.log counts.length +
            (1 / (counts.length : ℝ) -
              (counts.get i : ℝ) / ((counts.sum : ℕ) : ℝ)) := by
        intro i _
        apply ((gibbs_term _ (hp0 i) counts.length hk).2).mpr
        rw [div_eq_div_iff (ne_of_gt hNR) (ne_of_gt hkR), one_mul]
        exact_mod_cast huni i
      rw [Finset.sum_congr rfl hall, hRHS]

/-- Claim C10: at a numerical internal node, a row whose value for the split
feature is missing fails both float comparisons (NaN compares False), so
`__predict` falls through to the `assert False` branch instead of returning a
label or reusing the training-time duplication policy. -/
theorem numerical_nan_assertion (catFs : List String)
    (rankFs : List (String × List String)) (numFs : List String) (f : String)
    (fv : Option FV) (i : ℚ) (s : ℕ) (d : List ℕ) (lab : String)
    (c0 : Node) (rest : List Node) (t : ℚ) (point : String → Cell)
    (fuel : ℕ)
    (hcat : catFs.contains f = false)
    (hrank : (rankFs.map Prod.fst).contains f = false)
    (hnum : numFs.contains f = true)
    (ht : thresholdOf c0 = some t)
    (hp : point f = Cell.nan) :
    predictNode catFs rankFs numFs (fuel + 1)
      (Node.mk (some f) fv i s d lab (c0 :: rest)) point =
      .error "AssertionError: neither branch matches" := by
  rw [predictNode]
  simp only [predictBody, Node.feature, Node.label, Node.childs]
  rw [hp, hcat, hrank, hnum]
  simp [ht, Cell.leB, Cell.gtB]

/-- Witness for C10: a two-child numerical node with threshold 1 on feature F
and a row with F missing hits the assertion. -/
theorem numerical_nan_assertion_witness :
    (["F"] : List String).contains "F" = true ∧
    predictNode [] [] ["F"] 2
      (Node.mk (some "F") none 0 2 [1, 1] "a"
        [Node.mk none (some (FV.num true 1)) 0 1 [1, 0] "a" [],
         Node.mk none (some (FV.num false 1)) 0 1 [0, 1] "b" []])
      (fun _ => Cell.nan) =
      .error "AssertionError: neither branch matches" :=
  ⟨rfl, numerical_nan_assertion [] [] ["F"] "F" none 0 2 [1, 1] "a"
    (Node.mk none (some (FV.num true 1)) 0 1 [1, 0] "a" [])
    [Node.mk none (some (FV.num false 1)) 0 1 [0, 1] "b" []] 1
    (fun _ => Cell.nan) 1 rfl rfl rfl rfl rfl⟩

/-- A branch descriptor never compares equal to a cell: every descriptor is a
Python list (asserted at construction, src/_tree.py lines 570-571) while
`point[feature]` is a scalar string, float or NaN, and Python `==` between a
list and a non-list is `False`. -/
theorem fvMatches_false (c : Node) (v : Cell) : fvMatches c v = false := by
  rcases c with ⟨f, fv, i, s, d, lab, cs⟩
  rcases fv with - | (vals | ⟨isLe, t⟩) <;> rcases v with s1 | q | - <;>
    simp [fvMatches, Node.feature_value, fvToPy, cellToPy, pyEq]

/-- The child-search loop of `__predict` never finds a matching branch. -/
theorem predictFind_none (cs : List Node) (v : Cell) :
    cs.find? (fun c => fvMatches c v) = none := by
  simp [List.find?_eq_none, fvMatches_false]

/-- Claim C1: prediction at an internal node that splits on a categorical or
ordinal feature never recurses into any child, whatever the row's value: the
test `child.feature_value == point[node.feature]` compares a list against a
scalar and is always False in Python, so the for-else branch always fires and
the node's own majority label is returned even when a child's branch contains
the row's value. -/
theorem categorical_prediction_returns_label (catFs : List String)
    (rankFs : List (String × List String)) (numFs : List String) (f : String)
    (fv : Option FV) (i : ℚ) (s : ℕ) (d : List ℕ) (lab : String)
    (cs : List Node) (point : String → Cell) (fuel : ℕ)
    (h : (catFs.contains f || (rankFs.map Prod.fst).contains f) = true) :
    predictNode catFs rankFs numFs (fuel + 1)
      (Node.mk (some f) fv i s d lab cs) point = .ok lab := by
  rw [predictNode]
  simp only [predictBody, Node.feature, Node.label, Node.childs]
  rw [h]
  simp [predictFind_none]

/-- Witness for C1: a tree split on categorical feature F with branches
[[x]] (label a) and [[y]] (label b); the row F = y should reach the second
child and return b, but the code returns the root label a. -/
theorem categorical_prediction_returns_label_witness :
    ((["F"] : List String).contains "F" ||
      (([] : List (String × List String)).map Prod.fst).contains "F") =
        true ∧
    predictNode ["F"] [] [] 2
      (Node.mk (some "F") none 0 3 [2, 1] "a"
        [Node.mk none (some (FV.cat ["x"])) 0 2 [2, 0] "a" [],
         Node.mk none (some (FV.cat ["y"])) 0 1 [0, 1] "b" []])
      (fun _ => Cell.str "y") = .ok "a" :=
  ⟨rfl, categorical_prediction_returns_label ["F"] [] [] "F" none 0 3 [2, 1]
    "a"
    [Node.mk none (some (FV.cat ["x"])) 0 2 [2, 0] "a" [],
     Node.mk none (some (FV.cat ["y"])) 0 1 [0, 1] "b" []]
    (fun _ => Cell.str "y") 1 rfl⟩

/-- Claim C3 (as amended): a fit call rejected by the parameter checks
returns with the model state exactly as before the call, and every failing
fit leaves the fitted tree unchanged, so no partial tree is ever stored;
the assignments executed before the gated-feature removal loop are the one
observable mutation an error can leave behind. -/
theorem fit_error_state_frame (imp : List String → List Bool → ℚ)
    (cfg : Config) (fuel : ℕ) (s : ModelState) (inp : FitInput) :
    (∀ e, checkFitParams inp = some e →
      fitModel imp cfg fuel s inp = (s, some e)) ∧
    (∀ e, (fitModel imp cfg fuel s inp).2 = some e →
      (fitModel imp cfg fuel s inp).1.tree = s.tree) := by
  constructor
  · intro e he
    simp [fitModel, he]
  · intro e he
    rcases hc : checkFitParams inp with - | e1
    · rcases ha : initialAvailable inp.X.cols inp.special_cases with - | avail
      · simp [fitModel, hc, ha]
      · simp [fitModel, hc, ha] at he
    · simp [fitModel, hc]

/-- Witness for C3: a fit whose inputs have mismatched lengths fails the
first check and returns the pre-fit state untouched. -/
theorem fit_error_state_frame_witness :
    checkFitParams
      ⟨⟨["F"], []⟩, ["a"], ["F"], [], [], []⟩ =
        some "X and y must have equal length" ∧
    fitModel (fun _ _ => 0) ⟨2, 1, 0, none, none⟩ 1 initState
      ⟨⟨["F"], []⟩, ["a"], ["F"], [], [], []⟩ =
        (initState, some "X and y must have equal length") :=
  ⟨by decide,
   (fit_error_state_frame (fun _ _ => 0) ⟨2, 1, 0, none, none⟩ 1 initState
     ⟨⟨["F"], []⟩, ["a"], ["F"], [], [], []⟩).1
     "X and y must have equal length" (by decide)⟩

/-- Claim C3, counterexample: a `special_cases` value naming a feature that
is not a column passes the parameter checks, so `fit` first overwrites
feature names, class names and importances and only then fails in the
removal loop; the error leaves the model observably mutated, here with
`feature_names` changed from unset to the new columns. -/
theorem fit_error_mutates_state_counterexample :
    ((fitModel (fun _ _ => 0) ⟨2, 1, 0, none, none⟩ 1 initState
      ⟨⟨["F"], [fun _ => Cell.str "x"]⟩, ["a"], ["F"], [], [],
        [("F", ["G"])]⟩).2).isSome = true ∧
    (fitModel (fun _ _ => 0) ⟨2, 1, 0, none, none⟩ 1 initState
      ⟨⟨["F"], [fun _ => Cell.str "x"]⟩, ["a"], ["F"], [], [],
        [("F", ["G"])]⟩).1.feature_names ≠ initState.feature_names := by
  constructor
  · decide
  · decide

/-- Witness for C9: the impurity properties hold on the concrete count vector
[2, 1], whose total 3 is positive. -/
theorem impurity_function_properties_witness :
    0 < ([2, 1] : List ℕ).sum ∧
    0 ≤ entropyCounts [2, 1] ∧ 0 ≤ giniCounts [2, 1] := by
  refine ⟨by decide, ?_, ?_⟩
  · exact (impurity_function_properties [2, 1] (by decide)).2.2.1
  · exact (impurity_function_properties [2, 1] (by decide)).2.2.2.1

/-! Hierarchy gating (claim C8). -/

mutual

/-- Feature G is never the split feature of a node whose root-to-node path
has no earlier split on H: at every node, the node itself does not split on
G, and either it splits on H (below which G is allowed) or all its children
satisfy the same property. -/
def avoidsUntil (G H : String) : Node → Bool
  | .mk f _ _ _ _ _ cs =>
      decide (f ≠ some G) && (decide (f = some H) || avoidsUntilList G H cs)

/-- The same property over every node of a list. -/
def avoidsUntilList (G H : String) : List Node → Bool
  | [] => true
  | c :: rest => avoidsUntil G H c && avoidsUntilList G H rest

end

theorem avoidsUntil_mk (G H : String) (f : Option String) (fv : Option FV)
    (i : ℚ) (sm : ℕ) (d : List ℕ) (lab : String) (cs : List Node) :
    avoidsUntil G H (Node.mk f fv i sm d lab cs) =
      (decide (f ≠ some G) &&
        (decide (f = some H) || avoidsUntilList G H cs)) := by
  rw [avoidsUntil]

theorem avoidsUntilList_eq_all (G H : String) (l : List Node) :
    avoidsUntilList G H l = l.all (avoidsUntil G H) := by
  induction l with
  | nil => rw [avoidsUntilList, List.all_nil]
  | cons c rest ih => rw [avoidsUntilList, ih, List.all_cons]

/-- The running best of the selector loop only ever holds a feature of the
iterated list or of the initial accumulator. -/
theorem foldl_selStep_feature_mem (mid : ℚ)
    (evalF : String → ℚ × List (List Bool) × List FV) :
    ∀ (feats : List String) (init : SplitResult) (f : String),
      (feats.foldl (selStep mid evalF) init).feature = some f →
      f ∈ feats ∨ init.feature = some f := by
  intro feats
  induction feats with
  | nil => exact fun init f h => Or.inr h
  | cons c rest ih =>
      intro init f h
      rw [List.foldl_cons] at h
      rcases ih (selStep mid evalF init c) f h with hm | hs
      · exact Or.inl (List.mem_cons_of_mem c hm)
      · by_cases hcond : mid ≤ (evalF c).1 ∧ init.inf_gain < (evalF c).1
        · rw [show selStep mid evalF init c =
              ⟨some c, (evalF c).2.1, (evalF c).2.2, (evalF c).1⟩ from by
            simp [selStep, hcond]] at hs
          have hcf : c = f := by simpa using hs
          subst hcf
          exact Or.inl (List.mem_cons_self c rest)
        · rw [show selStep mid evalF init c = init from by
            simp only [selStep]; rw [if_neg hcond]] at hs
          exact Or.inr hs

/-- The split selector only returns a feature of the eligible set. -/
theorem split_feature_mem (imp : List String → List Bool → ℚ) (cfg : Config)
    (catFs : List String) (rankFs : List (String × List String))
    (numFs : List String) (X : Table) (y : List String) (pm : List Bool)
    (avail : List String) (f : String)
    (h : (split imp cfg catFs rankFs numFs X y pm avail).feature = some f) :
    f ∈ avail := by
  simp only [split, selectFold] at h
  rcases foldl_selStep_feature_mem cfg.min_impurity_decrease
      (evalFeature imp cfg catFs rankFs numFs X y pm) avail
      ⟨none, [], [], 0⟩ f h with hm | hs
  · exact hm
  · exact absurd hs (by simp)

/-- A hierarchy lookup only returns the value of an entry of the map. -/
theorem scLookup_mem (sc : List (String × List String)) (f : String)
    (gs : List String) (h : scLookup sc f = some gs) : (f, gs) ∈ sc := by
  unfold scLookup at h
  obtain ⟨p, hp, hsnd⟩ := Option.map_eq_some'.mp h
  have hmem := List.mem_of_find?_eq_some hp
  have hkey := List.find?_some hp
  rcases p with ⟨k, v⟩
  simp only [beq_iff_eq] at hkey
  subst hkey
  rw [show v = gs from hsnd] at hmem
  exact hmem

/-- An element not matched by the predicate survives `eraseP`. -/
theorem mem_eraseP_of_not {α : Type*} (p : α → Bool) :
    ∀ (l : List α) (a : α), a ∈ l → p a = false → a ∈ l.eraseP p := by
  intro l
  induction l with
  | nil => intro a ha; exact absurd ha (List.not_mem_nil a)
  | cons b t ih =>
      intro a ha hpa
      by_cases hb : p b = true
      · rw [List.eraseP_cons_of_pos hb]
        rcases List.mem_cons.mp ha with rfl | h
        · rw [hpa] at hb; cases hb
        · exact h
      · rw [List.eraseP_cons_of_neg (by simpa using hb)]
        rcases List.mem_cons.mp ha with rfl | h
        · exact List.mem_cons_self a _
        · exact List.mem_cons_of_mem b (ih a h hpa)

/-- Folding the removal step from a failed state stays failed. -/
theorem foldl_remove_none (gs : List String) :
    gs.foldl (fun acc g => acc.bind (fun l => removeFirst l g)) none =
      none := by
  induction gs with
  | nil => rfl
  | cons g t ih => rw [List.foldl_cons]; exact ih

/-- `list.remove` keeps the list up to moving one occurrence to the front. -/
theorem removeFirst_perm (a : String) :
    ∀ (l l2 : List String), removeFirst l a = some l2 →
      List.Perm l (a :: l2) := by
  intro l
  induction l with
  | nil => intro l2 h; simp [removeFirst] at h
  | cons c t ih =>
      intro l2 h
      rw [removeFirst] at h
      by_cases hc : c = a
      · rw [if_pos hc] at h
        obtain rfl : t = l2 := by simpa using h
        rw [hc]
      · rw [if_neg hc] at h
        obtain ⟨t2, ht2, rfl⟩ := Option.map_eq_some'.mp h
        exact ((ih t2 ht2).cons c).trans (List.Perm.swap a c t2)

/-- The removal loop of `fit` moves all the removed values to the front, up
to order: when it succeeds, the input features are a permutation of the
removed values followed by what is left. -/
theorem foldl_remove_perm :
    ∀ (gs l0 avail : List String),
      gs.foldl (fun acc g => acc.bind (fun l => removeFirst l g))
        (some l0) = some avail →
      List.Perm l0 (gs ++ avail) := by
  intro gs
  induction gs with
  | nil =>
      intro l0 avail h
      rw [List.foldl_nil] at h
      obtain rfl : l0 = avail := by simpa using h
      simp
  | cons g t ih =>
      intro l0 avail h
      rw [List.foldl_cons, Option.some_bind, ] at h
      rcases hrf : removeFirst l0 g with - | l1
      · rw [hrf, foldl_remove_none] at h
        cases h
      · rw [hrf] at h
        exact (removeFirst_perm g l0 l1 hrf).trans ((ih l1 avail h).cons g)

/-- With duplicate-free columns, every gated feature is missing from the
eligible set that the removal loop of `fit` produces. -/
theorem initialAvailable_not_mem (features : List String)
    (sc : List (String × List String)) (avail : List String) (G : String)
    (hnodup : features.Nodup) (hG : G ∈ sc.flatMap Prod.snd)
    (h : initialAvailable features sc = some avail) : G ∉ avail := by
  unfold initialAvailable at h
  have hperm := foldl_remove_perm (sc.flatMap Prod.snd) features avail h
  have hnd := hperm.nodup hnodup
  rw [List.nodup_append] at hnd
  exact fun hGa => hnd.2.2 hG hGa

/-- Gating invariant of the tree builder: if G is not eligible and every
hierarchy entry unlocking G is keyed by H, the generated node never splits
on G anywhere above the first split on H. -/
theorem generateNode_avoids (imp : List String → List Bool → ℚ)
    (cfg : Config) (catFs : List String)
    (rankFs : List (String × List String)) (numFs : List String) (X : Table)
    (y classNames : List String) (G H : String) :
    ∀ (fuel : ℕ) (pm : List Bool) (fv : Option FV) (depth : ℕ)
      (avail : List String) (sc : List (String × List String)),
      G ∉ avail → (∀ p ∈ sc, G ∈ p.2 → p.1 = H) →
      avoidsUntil G H (generateNode imp cfg catFs rankFs numFs X y
        classNames fuel pm fv depth avail sc) = true := by
  intro fuel
  induction fuel with
  | zero =>
      intro pm fv depth avail sc hG hsc
      simp [generateNode, avoidsUntil_mk, avoidsUntilList]
  | succ fuel ih =>
      intro pm fv depth avail sc hG hsc
      by_cases htry : (decide (cfg.min_samples_split ≤ maskSum pm) &&
          maxDepthOk cfg.max_depth depth) = true
      · have hlist : ∀ availNew scNew, G ∉ availNew →
            (∀ p ∈ scNew, G ∈ p.2 → p.1 = H) →
            avoidsUntilList G H
              (((split imp cfg catFs rankFs numFs X y pm
                  avail).masks.zip
                (split imp cfg catFs rankFs numFs X y pm
                  avail).feature_values).map (fun p =>
                generateNode imp cfg catFs rankFs numFs X y classNames
                  fuel p.1 (some p.2) (depth + 1) availNew scNew)) =
              true := by
          intro availNew scNew hGa hsca
          rw [avoidsUntilList_eq_all, List.all_eq_true]
          intro x hx
          obtain ⟨p, hp, rfl⟩ := List.mem_map.mp hx
          exact ih p.1 (some p.2) (depth + 1) availNew scNew hGa hsca
        cases hf : (split imp cfg catFs rankFs numFs X y pm avail).feature
          with
        | none =>
            have heq : generateNode imp cfg catFs rankFs numFs X y
                classNames (fuel + 1) pm fv depth avail sc =
                Node.mk none fv (imp y pm) (maskSum pm)
                  (distributionOf classNames y pm)
                  (mostFrequent (select pm y)) [] := by
              simp only [generateNode]
              rw [if_pos htry, hf]
            rw [heq, avoidsUntil_mk]
            simp [avoidsUntilList]
        | some f =>
            have hfa : f ∈ avail :=
              split_feature_mem imp cfg catFs rankFs numFs X y pm avail f hf
            have hfG : f ≠ G := fun hEq => hG (hEq ▸ hfa)
            cases hsl : scLookup sc f with
            | none =>
                have heq : generateNode imp cfg catFs rankFs numFs X y
                    classNames (fuel + 1) pm fv depth avail sc =
                    Node.mk (some f) fv (imp y pm) (maskSum pm)
                      (distributionOf classNames y pm)
                      (mostFrequent (select pm y))
                      (((split imp cfg catFs rankFs numFs X y pm
                          avail).masks.zip
                        (split imp cfg catFs rankFs numFs X y pm
                          avail).feature_values).map (fun p =>
                        generateNode imp cfg catFs rankFs numFs X y
                          classNames fuel p.1 (some p.2) (depth + 1) avail
                          sc)) := by
                  simp only [generateNode]
                  rw [if_pos htry, hf]
                  simp only [hsl]
                rw [heq, avoidsUntil_mk]
                by_cases hfH : f = H
                · subst hfH
                  simp [hfG]
                · rw [Bool.and_eq_true, Bool.or_eq_true]
                  exact ⟨by simp [hfG], Or.inr (hlist avail sc hG hsc)⟩
            | some gs2 =>
                have heq : generateNode imp cfg catFs rankFs numFs X y
                    classNames (fuel + 1) pm fv depth avail sc =
                    Node.mk (some f) fv (imp y pm) (maskSum pm)
                      (distributionOf classNames y pm)
                      (mostFrequent (select pm y))
                      (((split imp cfg catFs rankFs numFs X y pm
                          avail).masks.zip
                        (split imp cfg catFs rankFs numFs X y pm
                          avail).feature_values).map (fun p =>
                        generateNode imp cfg catFs rankFs numFs X y
                          classNames fuel p.1 (some p.2) (depth + 1)
                          (avail ++ gs2)
                          (sc.eraseP (fun q => q.1 == f)))) := by
                  simp only [generateNode]
                  rw [if_pos htry, hf]
                  simp only [hsl]
                rw [heq, avoidsUntil_mk]
                by_cases hfH : f = H
                · subst hfH
                  simp [hfG]
                · rw [Bool.and_eq_true, Bool.or_eq_true]
                  refine ⟨by simp [hfG], Or.inr (hlist (avail ++ gs2)
                    (sc.eraseP (fun q => q.1 == f)) ?_ ?_)⟩
                  · intro hGm
                    rcases List.mem_append.mp hGm with hGa | hGg
                    · exact hG hGa
                    · exact hfH
                        (hsc (f, gs2) (scLookup_mem sc f gs2 hsl) hGg)
                  · intro p hp hGp
                    exact hsc p (List.mem_of_mem_eraseP hp) hGp
      · have heq : generateNode imp cfg catFs rankFs numFs X y classNames
            (fuel + 1) pm fv depth avail sc =
            Node.mk none fv (imp y pm) (maskSum pm)
              (distributionOf classNames y pm)
              (mostFrequent (select pm y)) [] := by
          simp only [generateNode]
          rw [if_neg htry]
        rw [heq, avoidsUntil_mk]
        simp [avoidsUntilList]

/-- Unlock step of the tree builder: a node that splits on a feature keyed in
the hierarchy builds each of its children with the unlocked features appended
to the eligible set and the fired entry erased from the hierarchy. -/
theorem generateNode_unlock (imp : List String → List Bool → ℚ)
    (cfg : Config) (catFs : List String)
    (rankFs : List (String × List String)) (numFs : List String) (X : Table)
    (y classNames : List String) (fuel : ℕ) (pm : List Bool)
    (fv : Option FV) (depth : ℕ) (avail : List String)
    (sc : List (String × List String)) (f : String) (gs : List String)
    (htry : (decide (cfg.min_samples_split ≤ maskSum pm) &&
      maxDepthOk cfg.max_depth depth) = true)
    (hf : (split imp cfg catFs rankFs numFs X y pm avail).feature = some f)
    (hsl : scLookup sc f = some gs) :
    generateNode imp cfg catFs rankFs numFs X y classNames (fuel + 1) pm fv
      depth avail sc =
    Node.mk (some f) fv (imp y pm) (maskSum pm)
      (distributionOf classNames y pm) (mostFrequent (select pm y))
      (((split imp cfg catFs rankFs numFs X y pm avail).masks.zip
        (split imp cfg catFs rankFs numFs X y pm avail).feature_values).map
        (fun p => generateNode imp cfg catFs rankFs numFs X y classNames
          fuel p.1 (some p.2) (depth + 1) (avail ++ gs)
          (sc.eraseP (fun q => q.1 == f)))) := by
  simp only [generateNode]
  rw [if_pos htry, hf]
  simp only [hsl]

/-- Claim C8: with a hierarchy map, a gated feature G keyed by H is absent
from the eligible set computed at the root, a successfully fitted tree never
splits on G at any node whose root-to-node path has no split on H, and a
node splitting on a keyed feature builds every one of its children with the
unlocked features appended to the eligible set and the fired entry removed
from the hierarchy, the siblings of that node being built from the unchanged
sets. -/
theorem hierarchy_gating (imp : List String → List Bool → ℚ) (cfg : Config)
    (fuel : ℕ) (s : ModelState) (inp : FitInput) (H G : String)
    (gs : List String)
    (hmem : (H, gs) ∈ inp.special_cases) (hG : G ∈ gs)
    (honly : ∀ p ∈ inp.special_cases, G ∈ p.2 → p.1 = H)
    (hnodup : inp.X.cols.Nodup) :
    (∀ avail, initialAvailable inp.X.cols inp.special_cases = some avail →
      G ∉ avail) ∧
    (∀ t, (fitModel imp cfg fuel s inp).2 = none →
      (fitModel imp cfg fuel s inp).1.tree = some t →
      avoidsUntil G H t = true) ∧
    (∀ (catFs : List String) (rankFs : List (String × List String))
       (numFs : List String) (classNames : List String) (fl : ℕ)
       (pm : List Bool) (fv : Option FV) (depth : ℕ) (avail : List String)
       (sc : List (String × List String)) (f : String) (gs2 : List String),
       (decide (cfg.min_samples_split ≤ maskSum pm) &&
         maxDepthOk cfg.max_depth depth) = true →
       (split imp cfg catFs rankFs numFs inp.X inp.y pm avail).feature =
         some f →
       scLookup sc f = some gs2 →
       generateNode imp cfg catFs rankFs numFs inp.X inp.y classNames
         (fl + 1) pm fv depth avail sc =
       Node.mk (some f) fv (imp inp.y pm) (maskSum pm)
         (distributionOf classNames inp.y pm)
         (mostFrequent (select pm inp.y))
         (((split imp cfg catFs rankFs numFs inp.X inp.y pm
             avail).masks.zip
           (split imp cfg catFs rankFs numFs inp.X inp.y pm
             avail).feature_values).map
           (fun p => generateNode imp cfg catFs rankFs numFs inp.X inp.y
             classNames fl p.1 (some p.2) (depth + 1) (avail ++ gs2)
             (sc.eraseP (fun q => q.1 == f))))) := by
  have hGflat : G ∈ inp.special_cases.flatMap Prod.snd :=
    List.mem_flatMap.mpr ⟨(H, gs), hmem, hG⟩
  refine ⟨?_, ?_, ?_⟩
  · intro avail h
    exact initialAvailable_not_mem inp.X.cols inp.special_cases avail G
      hnodup hGflat h
  · intro t herr htree
    rcases hc : checkFitParams inp with - | e
    · rcases ha : initialAvailable inp.X.cols inp.special_cases
        with - | avail
      · simp [fitModel, hc, ha] at herr
      · have hGa : G ∉ avail := initialAvailable_not_mem inp.X.cols
          inp.special_cases avail G hnodup hGflat ha
        simp [fitModel, hc, ha] at htree
        subst htree
        exact generateNode_avoids imp cfg _ _ _ inp.X inp.y
          (sortedClasses inp.y) G H fuel _ none 1 avail inp.special_cases
          hGa honly
    · simp [fitModel, hc] at herr
  · intro catFs rankFs numFs classNames fl pm fv depth avail sc f gs2 htry
      hf hsl
    exact generateNode_unlock imp cfg catFs rankFs numFs inp.X inp.y
      classNames fl pm fv depth avail sc f gs2 htry hf hsl

/-- Witness for C8: columns [H, G] with hierarchy entry H unlocking G; the
eligible set at the root excludes G. -/
theorem hierarchy_gating_witness :
    ((("H", ["G"]) ∈ ([("H", ["G"])] : List (String × List String))) ∧
      "G" ∈ ["G"] ∧ (["H", "G"] : List String).Nodup) ∧
    (∀ avail,
      initialAvailable ["H", "G"] [("H", ["G"])] = some avail →
      "G" ∉ avail) :=
  ⟨⟨by decide, by decide, by decide⟩,
   (hierarchy_gating (fun _ _ => 0) ⟨2, 1, 0, none, none⟩ 1 initState
     ⟨⟨["H", "G"], [fun _ => Cell.str "x"]⟩, ["a"], ["H", "G"], [], [],
       [("H", ["G"])]⟩ "H" "G" ["G"] (by decide) (by decide) (by decide)
     (by decide)).1⟩

end MSDT
